import Mathlib

/-!
# Verification of the localflow draft–approval–execution pipeline

This file embeds the core of the `localflow` server in Lean and proves the
central properties of its specification: canonical JSON serialisation and its
injectivity, the approval/plan-binding checks of the execution service, the
risk-tier confirmation policy, the draft lifecycle state machine, the
permission containment of the local retrieval index, and the repair loop of
the LLM provider.

Python values that the pipeline passes around are modelled by the `Json`
inductive below.  JSON numbers are modelled as integers: every number the
gate ever serialises or compares (ids, counts, flags) is integral, and float
formatting is outside the model.  Strings are lists of unicode scalar
characters.  Objects are association lists in insertion order, exactly like
a Python `dict`; well-formedness (`wfJson`) states that keys are duplicate
free at every depth, which is guaranteed for every value decoded from JSON
or built from a Python dict.
-/

namespace LocalFlow

/-- JSON trees.  `obj` keeps the insertion order of a Python `dict`. -/
inductive Json where
  | null
  | bool (b : Bool)
  | num (n : Int)
  | str (s : List Char)
  | arr (xs : List Json)
  | obj (kvs : List (List Char × Json))

/-- The opening brace character, written numerically. -/
def lbrace : Char := Char.ofNat 123

/-- The closing brace character, written numerically. -/
def rbrace : Char := Char.ofNat 125

/-- Decimal digit characters, as `repr` of a one-digit `int` prints them. -/
def digitCh (n : Nat) : Char :=
  match n with
  | 0 => '0' | 1 => '1' | 2 => '2' | 3 => '3' | 4 => '4'
  | 5 => '5' | 6 => '6' | 7 => '7' | 8 => '8' | _ => '9'

/-- Lowercase hexadecimal digits, as `json.dumps` emits in `\uXXXX` escapes. -/
def hexCh (n : Nat) : Char :=
  if n < 10 then digitCh n
  else match n with
  | 10 => 'a' | 11 => 'b' | 12 => 'c' | 13 => 'd' | 14 => 'e' | _ => 'f'

/-- Fuelled decimal digit emitter; `fuel` only has to exceed the number. -/
def natCharsAux : Nat → Nat → List Char
  | 0, _ => []
  | fuel + 1, n =>
    if n < 10 then [digitCh n]
    else natCharsAux fuel (n / 10) ++ [digitCh (n % 10)]

/-- Decimal digits of a natural number, as Python `repr` prints it. -/
def natChars (n : Nat) : List Char := natCharsAux (n + 1) n

/-- Decimal rendering of an integer, as Python `repr` prints an `int`
(a leading `-` for negatives, never `-0`). -/
def intChars : Int → List Char
  | .ofNat n => natChars n
  | .negSucc m => '-' :: natChars (m + 1)

/-- Four lowercase hex digits, as in Python's `\uXXXX` escapes. -/
def hex4 (n : Nat) : List Char :=
  [hexCh (n / 4096 % 16), hexCh (n / 256 % 16), hexCh (n / 16 % 16), hexCh (n % 16)]

/-- Escape of one character inside a JSON string literal, following
`json.dumps` with its default `ensure_ascii=True`: quote and backslash get
two-character escapes, the five classic control characters get their short
escapes, other characters outside `0x20..0x7e` are emitted as `\uXXXX`
(with a surrogate pair for astral characters). -/
def esc (c : Char) : List Char :=
  if c = '\"' then ['\\', '\"']
  else if c = '\\' then ['\\', '\\']
  else if c.toNat = 8 then ['\\', 'b']
  else if c.toNat = 9 then ['\\', 't']
  else if c.toNat = 10 then ['\\', 'n']
  else if c.toNat = 12 then ['\\', 'f']
  else if c.toNat = 13 then ['\\', 'r']
  else if c.toNat < 32 then '\\' :: 'u' :: hex4 c.toNat
  else if c.toNat < 127 then [c]
  else if c.toNat < 65536 then '\\' :: 'u' :: hex4 c.toNat
  else '\\' :: 'u' :: hex4 (55296 + (c.toNat - 65536) / 1024) ++
       '\\' :: 'u' :: hex4 (56320 + (c.toNat - 65536) % 1024)

/-- Escape every character of a string body. -/
def escList : List Char → List Char
  | [] => []
  | c :: t => esc c ++ escList t

/-- A JSON string literal: quote, escaped body, quote. -/
def serStr (s : List Char) : List Char :=
  '\"' :: escList s ++ ['\"']

/-- Code-point lexicographic strict order on strings, the order Python's
`sorted` uses on `str` keys. -/
def lexLt : List Char → List Char → Bool
  | [], [] => false
  | [], _ :: _ => true
  | _ :: _, [] => false
  | a :: as, b :: bs =>
    if a.toNat < b.toNat then true
    else if b.toNat < a.toNat then false
    else lexLt as bs

/-- Insert one key-value pair into a key-sorted association list. -/
def insertKV (p : List Char × Json) : List (List Char × Json) → List (List Char × Json)
  | [] => [p]
  | q :: t => if lexLt q.1 p.1 then q :: insertKV p t else p :: q :: t

/-- Sort an association list by key, as `sort_keys=True` sorts the items of
a dict being serialised (keys are duplicate free, so stability is moot). -/
def sortKVs : List (List Char × Json) → List (List Char × Json)
  | [] => []
  | p :: t => insertKV p (sortKVs t)

mutual

/-- Recursively sort the keys of every object of a JSON tree.  Serialising
the result in order is exactly serialising the original with
`sort_keys=True`. -/
def sortJson : Json → Json
  | .null => .null
  | .bool b => .bool b
  | .num n => .num n
  | .str s => .str s
  | .arr xs => .arr (sortJsonList xs)
  | .obj kvs => .obj (sortKVs (sortJsonKVs kvs))

def sortJsonList : List Json → List Json
  | [] => []
  | x :: t => sortJson x :: sortJsonList t

def sortJsonKVs : List (List Char × Json) → List (List Char × Json)
  | [] => []
  | (k, v) :: t => (k, sortJson v) :: sortJsonKVs t

end

mutual

/-- Order-preserving serialisation with the separators `(",", ":")` and no
whitespace, the element order being the list order.  `canonical_json`
composes it with `sortJson`. -/
def ser : Json → List Char
  | .null => "null".data
  | .bool true => "true".data
  | .bool false => "false".data
  | .num n => intChars n
  | .str s => serStr s
  | .arr xs => '[' :: serList xs ++ [']']
  | .obj kvs => lbrace :: serObj kvs ++ [rbrace]

def serList : List Json → List Char
  | [] => []
  | [x] => ser x
  | x :: y :: t => ser x ++ ',' :: serList (y :: t)

def serObj : List (List Char × Json) → List Char
  | [] => []
  | [(k, v)] => serStr k ++ ':' :: ser v
  | (k, v) :: q :: t => serStr k ++ ':' :: ser v ++ ',' :: serObj (q :: t)

end

/-- `canonical_json(obj)`: `json.dumps(obj, separators=(",", ":"),
sort_keys=True)` — sorted keys at every depth, minimal separators,
`ensure_ascii` escaping.  Both `approval_service.py` and
`execution_service.py` define exactly this function. -/
def canonical_json (x : Json) : List Char := ser (sortJson x)

mutual

/-- Well-formedness of a JSON tree: object keys are duplicate free at every
depth.  Every value parsed from JSON text or built from Python dicts has
this property. -/
def wfJson : Json → Bool
  | .null => true
  | .bool _ => true
  | .num _ => true
  | .str _ => true
  | .arr xs => wfJsonList xs
  | .obj kvs => decide ((kvs.map Prod.fst).Nodup) && wfJsonKVs kvs

def wfJsonList : List Json → Bool
  | [] => true
  | x :: t => wfJson x && wfJsonList t

def wfJsonKVs : List (List Char × Json) → Bool
  | [] => true
  | (_, v) :: t => wfJson v && wfJsonKVs t

end

/-- Structural equality of JSON trees: scalars compare by value, arrays
pointwise, and objects as finite maps — the same keys are present and the
values agreeing keys bind are structurally equal, irrespective of insertion
order.  This is the specification's notion of "structurally equal JSON
trees". -/
def structEq : Json → Json → Prop
  | .null, .null => True
  | .bool a, .bool b => a = b
  | .num a, .num b => a = b
  | .str a, .str b => a = b
  | .arr xs, .arr ys =>
      xs.length = ys.length ∧ ∀ p ∈ xs.zip ys, structEq p.1 p.2
  | .obj a, .obj b =>
      (∀ k : List Char, (∃ v, (k, v) ∈ a) ↔ (∃ w, (k, w) ∈ b)) ∧
      (∀ k v w, (k, v) ∈ a → (k, w) ∈ b → structEq v w)
  | _, _ => False
termination_by x y => sizeOf x + sizeOf y
decreasing_by
  · have h1 := List.sizeOf_lt_of_mem (List.of_mem_zip ‹_›).1
    have h2 := List.sizeOf_lt_of_mem (List.of_mem_zip ‹_›).2
    simp only [Json.arr.sizeOf_spec]
    omega
  · have h1 := List.sizeOf_lt_of_mem ‹(_, v) ∈ a›
    have h2 := List.sizeOf_lt_of_mem ‹(_, w) ∈ b›
    simp only [Json.obj.sizeOf_spec, Prod.mk.sizeOf_spec] at h1 h2 ⊢
    omega

/-- A character is a decimal digit. -/
def isDigitC (c : Char) : Prop := 48 ≤ c.toNat ∧ c.toNat ≤ 57

instance instDecIsDigitC (c : Char) : Decidable (isDigitC c) :=
  inferInstanceAs (Decidable (48 ≤ c.toNat ∧ c.toNat ≤ 57))

theorem digitCh_toNat {m : Nat} (h : m < 10) : (digitCh m).toNat = 48 + m := by
  interval_cases m <;> decide

theorem natCharsAux_congr :
    ∀ n f₁ f₂, n < f₁ → n < f₂ → natCharsAux f₁ n = natCharsAux f₂ n := by
  intro n
  induction n using Nat.strong_induction_on with
  | _ n ih =>
    intro f₁ f₂ h1 h2
    match f₁, f₂ with
    | a + 1, b + 1 =>
      by_cases hn : n < 10
      · simp [natCharsAux, hn]
      · have hlt : n / 10 < n := Nat.div_lt_self (by omega) (by omega)
        simp only [natCharsAux, hn, if_false]
        rw [ih (n / 10) hlt a b (by omega) (by omega)]

theorem natChars_eq (n : Nat) :
    natChars n = if n < 10 then [digitCh n]
                 else natChars (n / 10) ++ [digitCh (n % 10)] := by
  by_cases hn : n < 10
  · simp [natChars, natCharsAux, hn]
  · have hlt : n / 10 < n := Nat.div_lt_self (by omega) (by omega)
    rw [if_neg hn]
    have h1 : natCharsAux (n + 1) n
        = natCharsAux n (n / 10) ++ [digitCh (n % 10)] := by
      rw [show natCharsAux (n + 1) n
            = if n < 10 then [digitCh n]
              else natCharsAux n (n / 10) ++ [digitCh (n % 10)] from rfl,
          if_neg hn]
    rw [natChars, h1, natCharsAux_congr (n / 10) n (n / 10 + 1) (by omega) (by omega)]
    rfl

theorem natChars_ne_nil (n : Nat) : natChars n ≠ [] := by
  rw [natChars_eq]
  by_cases hn : n < 10 <;> simp [hn]

theorem natChars_digits (n : Nat) : ∀ c ∈ natChars n, isDigitC c := by
  induction n using Nat.strong_induction_on with
  | _ n ih =>
    rw [natChars_eq]
    by_cases hn : n < 10
    · simp only [hn, if_true, List.mem_singleton]
      rintro c rfl
      exact ⟨by rw [digitCh_toNat hn]; omega, by rw [digitCh_toNat hn]; omega⟩
    · have hlt : n / 10 < n := Nat.div_lt_self (by omega) (by omega)
      simp only [hn, if_false, List.mem_append, List.mem_singleton]
      rintro c (hc | rfl)
      · exact ih _ hlt c hc
      · have : n % 10 < 10 := Nat.mod_lt _ (by omega)
        exact ⟨by rw [digitCh_toNat this]; omega, by rw [digitCh_toNat this]; omega⟩

/-- Value of a digit string, used to invert `natChars`. -/
def digitsVal (l : List Char) : Nat :=
  l.foldl (fun a c => a * 10 + (c.toNat - 48)) 0

theorem digitsVal_natChars (n : Nat) : digitsVal (natChars n) = n := by
  induction n using Nat.strong_induction_on with
  | _ n ih =>
    rw [natChars_eq]
    by_cases hn : n < 10
    · simp [hn, digitsVal, List.foldl, digitCh_toNat hn]
    · have hlt : n / 10 < n := Nat.div_lt_self (by omega) (by omega)
      have hm : n % 10 < 10 := Nat.mod_lt _ (by omega)
      simp only [hn, if_false, digitsVal, List.foldl_append, List.foldl]
      have := ih _ hlt
      simp only [digitsVal] at this
      rw [this, digitCh_toNat hm]
      omega

theorem natChars_inj {a b : Nat} (h : natChars a = natChars b) : a = b := by
  have := congrArg digitsVal h
  rwa [digitsVal_natChars, digitsVal_natChars] at this

/-- A list does not start with a decimal digit. -/
def NoDigitHead (r : List Char) : Prop :=
  ∀ c t, r = c :: t → ¬ isDigitC c

theorem natChars_cancel {a b : Nat} {r s : List Char}
    (hr : NoDigitHead r) (hs : NoDigitHead s)
    (h : natChars a ++ r = natChars b ++ s) : a = b ∧ r = s := by
  rcases List.append_eq_append_iff.mp h with ⟨mid, h1, h2⟩ | ⟨mid, h1, h2⟩
  · match mid, h1, h2 with
    | [], h1, h2 =>
      simp at h1 h2
      exact ⟨natChars_inj h1.symm, h2⟩
    | c :: t, h1, h2 =>
      exfalso
      have hc : c ∈ natChars b := by
        rw [h1]; exact List.mem_append_right _ (by simp)
      exact hr c (t ++ s) h2 (natChars_digits b c hc)
  · match mid, h1, h2 with
    | [], h1, h2 =>
      simp at h1 h2
      exact ⟨natChars_inj h1, h2.symm⟩
    | c :: t, h1, h2 =>
      exfalso
      have hc : c ∈ natChars a := by
        rw [h1]; exact List.mem_append_right _ (by simp)
      exact hs c (t ++ r) h2 (natChars_digits a c hc)

theorem char_toNat_inj {c d : Char} (h : c.toNat = d.toNat) : c = d :=
  Char.eq_of_val_eq (UInt32.ext h)

theorem char_valid_range (c : Char) :
    c.toNat < 55296 ∨ (57343 < c.toNat ∧ c.toNat < 1114112) := by
  rcases c.valid with h | h
  · exact Or.inl h
  · exact Or.inr h

/-- Value of a lowercase hex digit, inverting `hexCh`. -/
def hexVal (c : Char) : Nat :=
  if c = 'a' then 10 else if c = 'b' then 11 else if c = 'c' then 12
  else if c = 'd' then 13 else if c = 'e' then 14 else if c = 'f' then 15
  else c.toNat - 48

theorem hexVal_hexCh {k : Nat} (h : k < 16) : hexVal (hexCh k) = k := by
  interval_cases k <;> decide

theorem hex4_length (n : Nat) : (hex4 n).length = 4 := rfl

theorem hex4_inj {a b : Nat} (ha : a < 65536) (hb : b < 65536)
    (h : hex4 a = hex4 b) : a = b := by
  simp only [hex4, List.cons.injEq, and_true] at h
  obtain ⟨h3, h2, h1, h0⟩ := h
  have e3 := congrArg hexVal h3
  have e2 := congrArg hexVal h2
  have e1 := congrArg hexVal h1
  have e0 := congrArg hexVal h0
  rw [hexVal_hexCh (Nat.mod_lt _ (by omega)), hexVal_hexCh (Nat.mod_lt _ (by omega))] at e3 e2 e1 e0
  omega

/-- The inverse of the two-character escapes `\" \\ \b \t \n \f \r`. -/
def simpleEsc (e : Char) : Option Char :=
  if e = '\"' then some '\"'
  else if e = '\\' then some '\\'
  else if e = 'b' then some (Char.ofNat 8)
  else if e = 't' then some (Char.ofNat 9)
  else if e = 'n' then some (Char.ofNat 10)
  else if e = 'f' then some (Char.ofNat 12)
  else if e = 'r' then some (Char.ofNat 13)
  else none

theorem esc_cases (c : Char) :
    (esc c = [c] ∧ 32 ≤ c.toNat ∧ c.toNat < 127 ∧ c ≠ '\"' ∧ c ≠ '\\')
    ∨ (∃ e, esc c = ['\\', e] ∧ simpleEsc e = some c)
    ∨ (esc c = '\\' :: 'u' :: hex4 c.toNat ∧ c.toNat < 65536 ∧
        (c.toNat < 55296 ∨ 57343 < c.toNat))
    ∨ (esc c = '\\' :: 'u' :: hex4 (55296 + (c.toNat - 65536) / 1024) ++
          '\\' :: 'u' :: hex4 (56320 + (c.toNat - 65536) % 1024) ∧
        65536 ≤ c.toNat) := by
  by_cases h1 : c = '\"'
  · refine Or.inr (Or.inl ⟨'\"', ?_, ?_⟩) <;> simp [esc, simpleEsc, h1]
  by_cases h2 : c = '\\'
  · refine Or.inr (Or.inl ⟨'\\', ?_, ?_⟩) <;> simp [esc, simpleEsc, h2]
  by_cases h3 : c.toNat = 8
  · refine Or.inr (Or.inl ⟨'b', ?_, ?_⟩) <;>
      simp [esc, simpleEsc, h1, h2, h3, char_toNat_inj (show c.toNat = (Char.ofNat 8).toNat by rw [h3]; decide)]
  by_cases h4 : c.toNat = 9
  · refine Or.inr (Or.inl ⟨'t', ?_, ?_⟩) <;>
      simp [esc, simpleEsc, h1, h2, h3, h4, char_toNat_inj (show c.toNat = (Char.ofNat 9).toNat by rw [h4]; decide)]
  by_cases h5 : c.toNat = 10
  · refine Or.inr (Or.inl ⟨'n', ?_, ?_⟩) <;>
      simp [esc, simpleEsc, h1, h2, h3, h4, h5, char_toNat_inj (show c.toNat = (Char.ofNat 10).toNat by rw [h5]; decide)]
  by_cases h6 : c.toNat = 12
  · refine Or.inr (Or.inl ⟨'f', ?_, ?_⟩) <;>
      simp [esc, simpleEsc, h1, h2, h3, h4, h5, h6, char_toNat_inj (show c.toNat = (Char.ofNat 12).toNat by rw [h6]; decide)]
  by_cases h7 : c.toNat = 13
  · refine Or.inr (Or.inl ⟨'r', ?_, ?_⟩) <;>
      simp [esc, simpleEsc, h1, h2, h3, h4, h5, h6, h7, char_toNat_inj (show c.toNat = (Char.ofNat 13).toNat by rw [h7]; decide)]
  by_cases h8 : c.toNat < 32
  · refine Or.inr (Or.inr (Or.inl ⟨?_, by omega, by omega⟩))
    simp [esc, h1, h2, h3, h4, h5, h6, h7, h8]
  by_cases h9 : c.toNat < 127
  · refine Or.inl ⟨?_, by omega, by omega, h1, h2⟩
    simp [esc, h1, h2, h3, h4, h5, h6, h7, h8, h9]
  by_cases h10 : c.toNat < 65536
  · refine Or.inr (Or.inr (Or.inl ⟨?_, h10, ?_⟩))
    · simp [esc, h1, h2, h3, h4, h5, h6, h7, h8, h9, h10]
    · rcases char_valid_range c with hv | hv
      · exact Or.inl hv
      · exact Or.inr hv.1
  · refine Or.inr (Or.inr (Or.inr ⟨?_, by omega⟩))
    simp [esc, h1, h2, h3, h4, h5, h6, h7, h8, h9, h10]

theorem simpleEsc_u : simpleEsc 'u' = none := by decide

theorem esc_head_ne_quote (c : Char) : ∃ e t, esc c = e :: t ∧ e ≠ '\"' := by
  rcases esc_cases c with ⟨h, -, -, hq, -⟩ | ⟨e, h, -⟩ | ⟨h, -⟩ | ⟨h, -⟩
  · exact ⟨c, [], h, hq⟩
  · exact ⟨'\\', [e], h, by decide⟩
  · exact ⟨'\\', _, h, by decide⟩
  · rw [h, List.cons_append, List.cons_append]
    exact ⟨'\\', _, rfl, by decide⟩

theorem esc_cancel {c d : Char} {t1 t2 : List Char}
    (h : esc c ++ t1 = esc d ++ t2) : c = d ∧ t1 = t2 := by
  have hvc := char_valid_range c
  have hvd := char_valid_range d
  rcases esc_cases c with ⟨hc, hcb1, hcb2, hcq, hcs⟩ | ⟨e1, hc, hce⟩ |
      ⟨hc, hcb, hcg⟩ | ⟨hc, hcb⟩
  · rcases esc_cases d with ⟨hd, hdb1, hdb2, hdq, hds⟩ | ⟨e2, hd, hde⟩ |
        ⟨hd, hdb, hdg⟩ | ⟨hd, hdb⟩ <;>
      rw [hc, hd] at h <;>
      simp only [List.cons_append, List.append_assoc, List.nil_append,
        List.singleton_append, List.cons.injEq] at h
    · exact ⟨h.1, h.2⟩
    · exact absurd h.1 hcs
    · exact absurd h.1 hcs
    · exact absurd h.1 hcs
  · rcases esc_cases d with ⟨hd, hdb1, hdb2, hdq, hds⟩ | ⟨e2, hd, hde⟩ |
        ⟨hd, hdb, hdg⟩ | ⟨hd, hdb⟩ <;>
      rw [hc, hd] at h <;>
      simp only [List.cons_append, List.append_assoc, List.nil_append,
        List.singleton_append, List.cons.injEq, true_and] at h
    · exact absurd h.1.symm hds
    · obtain ⟨he, ht⟩ := h
      rw [he] at hce
      exact ⟨Option.some.inj (hce.symm.trans hde), ht⟩
    · obtain ⟨he, -⟩ := h
      rw [he, simpleEsc_u] at hce
      exact absurd hce (by simp)
    · obtain ⟨he, -⟩ := h
      rw [he, simpleEsc_u] at hce
      exact absurd hce (by simp)
  · rcases esc_cases d with ⟨hd, hdb1, hdb2, hdq, hds⟩ | ⟨e2, hd, hde⟩ |
        ⟨hd, hdb, hdg⟩ | ⟨hd, hdb⟩ <;>
      rw [hc, hd] at h <;>
      simp only [List.cons_append, List.append_assoc, List.nil_append,
        List.singleton_append, List.cons.injEq, true_and] at h
    · exact absurd h.1.symm hds
    · obtain ⟨he, -⟩ := h
      rw [← he, simpleEsc_u] at hde
      exact absurd hde (by simp)
    · obtain ⟨h4, ht⟩ := List.append_inj h (by rw [hex4_length, hex4_length])
      exact ⟨char_toNat_inj (hex4_inj hcb hdb h4), ht⟩
    · obtain ⟨h4, -⟩ := List.append_inj h (by rw [hex4_length, hex4_length])
      have := hex4_inj hcb (by omega) h4
      omega
  · rcases esc_cases d with ⟨hd, hdb1, hdb2, hdq, hds⟩ | ⟨e2, hd, hde⟩ |
        ⟨hd, hdb, hdg⟩ | ⟨hd, hdb⟩ <;>
      rw [hc, hd] at h <;>
      simp only [List.cons_append, List.append_assoc, List.nil_append,
        List.singleton_append, List.cons.injEq, true_and] at h
    · exact absurd h.1.symm hds
    · obtain ⟨he, -⟩ := h
      rw [← he, simpleEsc_u] at hde
      exact absurd hde (by simp)
    · obtain ⟨h4, -⟩ := List.append_inj h (by rw [hex4_length, hex4_length])
      have := hex4_inj (show 55296 + (c.toNat - 65536) / 1024 < 65536 by omega) hdb h4
      omega
    · obtain ⟨h4, ht⟩ := List.append_inj h (by rw [hex4_length, hex4_length])
      have hhi := hex4_inj (show 55296 + (c.toNat - 65536) / 1024 < 65536 by omega)
        (show 55296 + (d.toNat - 65536) / 1024 < 65536 by omega) h4
      simp only [List.cons_append, List.append_assoc, List.nil_append,
        List.singleton_append, List.cons.injEq, true_and] at ht
      obtain ⟨h4b, ht2⟩ := List.append_inj ht (by rw [hex4_length, hex4_length])
      have hlo := hex4_inj (show 56320 + (c.toNat - 65536) % 1024 < 65536 by omega)
        (show 56320 + (d.toNat - 65536) % 1024 < 65536 by omega) h4b
      exact ⟨char_toNat_inj (by omega), ht2⟩

theorem escList_cancel :
    ∀ (a : List Char) (b : List Char) (r s : List Char),
      escList a ++ '\"' :: r = escList b ++ '\"' :: s → a = b ∧ r = s := by
  intro a
  induction a with
  | nil =>
    intro b r s h
    cases b with
    | nil =>
      simp [escList] at h
      exact ⟨rfl, h⟩
    | cons d bt =>
      exfalso
      obtain ⟨e, t, he, hq⟩ := esc_head_ne_quote d
      simp only [escList, List.nil_append, he, List.cons_append, List.append_assoc,
        List.cons.injEq] at h
      exact hq h.1.symm
  | cons c at_ ih =>
    intro b r s h
    cases b with
    | nil =>
      exfalso
      obtain ⟨e, t, he, hq⟩ := esc_head_ne_quote c
      simp only [escList, List.nil_append, he, List.cons_append, List.append_assoc,
        List.cons.injEq] at h
      exact hq h.1
    | cons d bt =>
      simp only [escList, List.append_assoc] at h
      obtain ⟨hcd, ht⟩ := esc_cancel h
      obtain ⟨hab, hrs⟩ := ih bt r s ht
      exact ⟨by rw [hcd, hab], hrs⟩

theorem serStr_cancel {a b r s : List Char}
    (h : serStr a ++ r = serStr b ++ s) : a = b ∧ r = s := by
  simp only [serStr, List.cons_append, List.append_assoc, List.singleton_append,
    List.cons.injEq, true_and] at h
  exact escList_cancel a b r s h

/-- Characters that may legally follow a serialised value inside a larger
canonical serialisation: a separator or a closing bracket. -/
def Closer (c : Char) : Prop := c = ',' ∨ c = ']' ∨ c = rbrace

/-- The remainder after a serialised value: empty, or starting with a
separator/closing bracket.  Canonical serialisations only ever place values
in such contexts. -/
def Follows (r : List Char) : Prop :=
  r = [] ∨ ∃ c t, r = c :: t ∧ Closer c

theorem closer_not_digit {c : Char} (h : Closer c) : ¬ isDigitC c := by
  rcases h with rfl | rfl | rfl <;> decide

theorem follows_noDigitHead {r : List Char} (h : Follows r) : NoDigitHead r := by
  intro c t hct hd
  rcases h with rfl | ⟨c', t', heq, hcl⟩
  · cases hct
  · rw [heq] at hct
    cases hct
    exact closer_not_digit hcl hd

theorem exists_cons_of_ne_nil {l : List Char} (h : l ≠ []) :
    ∃ c t, l = c :: t := by
  cases l with
  | nil => exact absurd rfl h
  | cons c t => exact ⟨c, t, rfl⟩

theorem intChars_cancel {m n : Int} {r s : List Char}
    (hr : Follows r) (hs : Follows s)
    (h : intChars m ++ r = intChars n ++ s) : m = n ∧ r = s := by
  cases m with
  | ofNat a =>
    cases n with
    | ofNat b =>
      simp only [intChars] at h
      obtain ⟨hab, hrs⟩ := natChars_cancel (follows_noDigitHead hr) (follows_noDigitHead hs) h
      exact ⟨by rw [hab], hrs⟩
    | negSucc b =>
      exfalso
      obtain ⟨c, t, hct⟩ := exists_cons_of_ne_nil (natChars_ne_nil a)
      have hd : isDigitC c := natChars_digits a c (by rw [hct]; simp)
      simp only [intChars, hct, List.cons_append, List.cons.injEq] at h
      rw [h.1] at hd
      exact absurd hd (by decide)
  | negSucc a =>
    cases n with
    | ofNat b =>
      exfalso
      obtain ⟨c, t, hct⟩ := exists_cons_of_ne_nil (natChars_ne_nil b)
      have hd : isDigitC c := natChars_digits b c (by rw [hct]; simp)
      simp only [intChars, hct, List.cons_append, List.cons.injEq] at h
      rw [← h.1] at hd
      exact absurd hd (by decide)
    | negSucc b =>
      simp only [intChars, List.cons_append, List.cons.injEq, true_and] at h
      obtain ⟨hab, hrs⟩ := natChars_cancel (follows_noDigitHead hr) (follows_noDigitHead hs) h
      exact ⟨by rw [show a = b by omega], hrs⟩

/-- The syntactic class a serialisation's first character announces. -/
def kindCh (c : Char) : Nat :=
  if c = 'n' then 0
  else if c = 't' then 1
  else if c = 'f' then 1
  else if c = '-' ∨ isDigitC c then 2
  else if c = '\"' then 3
  else if c = '[' then 4
  else if c = lbrace then 5
  else 6

/-- The syntactic class of a JSON constructor. -/
def kindJ : Json → Nat
  | .null => 0
  | .bool _ => 1
  | .num _ => 2
  | .str _ => 3
  | .arr _ => 4
  | .obj _ => 5

theorem digit_kindCh {c : Char} (h : isDigitC c) : kindCh c = 2 := by
  obtain ⟨h1, h2⟩ := h
  have hn : c ≠ 'n' := fun e => by rw [e] at h2; revert h2; decide
  have ht : c ≠ 't' := fun e => by rw [e] at h2; revert h2; decide
  have hf : c ≠ 'f' := fun e => by rw [e] at h2; revert h2; decide
  simp [kindCh, hn, ht, hf, isDigitC, h1, h2]

theorem ser_head_kind (x : Json) : ∃ c t, ser x = c :: t ∧ kindCh c = kindJ x := by
  cases x with
  | null => exact ⟨'n', _, rfl, by decide⟩
  | bool b =>
    cases b with
    | true => exact ⟨'t', _, rfl, by decide⟩
    | false => exact ⟨'f', _, rfl, by decide⟩
  | num n =>
    cases n with
    | ofNat a =>
      obtain ⟨c, t, hct⟩ := exists_cons_of_ne_nil (natChars_ne_nil a)
      have hd : isDigitC c := natChars_digits a c (by rw [hct]; simp)
      refine ⟨c, t, ?_, digit_kindCh hd⟩
      show intChars (.ofNat a) = c :: t
      simpa [intChars] using hct
    | negSucc a =>
      exact ⟨'-', _, rfl, by simp [kindCh, kindJ]⟩
  | str s => exact ⟨'\"', escList s ++ ['\"'], rfl, rfl⟩
  | arr xs => exact ⟨'[', serList xs ++ [']'], rfl, rfl⟩
  | obj kvs => exact ⟨lbrace, serObj kvs ++ [rbrace], rfl, rfl⟩

theorem ser_kind_eq {x y : Json} {r s : List Char}
    (h : ser x ++ r = ser y ++ s) : kindJ x = kindJ y := by
  obtain ⟨c1, t1, h1, k1⟩ := ser_head_kind x
  obtain ⟨c2, t2, h2, k2⟩ := ser_head_kind y
  rw [h1, h2] at h
  simp only [List.cons_append, List.cons.injEq] at h
  rw [← k1, ← k2, h.1]

/-- The central prefix-cancellation property of the serialiser: in any legal
context, a serialised value determines both the value and the remainder. -/
def CancelProp (x : Json) : Prop :=
  ∀ y r s, Follows r → Follows s → ser x ++ r = ser y ++ s → x = y ∧ r = s

theorem kindJ_le (y : Json) : kindJ y ≤ 5 := by
  cases y <;> simp [kindJ]

theorem serList_cons (y : Json) (yt : List Json) :
    ∃ X, serList (y :: yt) = ser y ++ X ∧
      ((yt = [] ∧ X = []) ∨ (yt ≠ [] ∧ X = ',' :: serList yt)) := by
  cases yt with
  | nil => exact ⟨[], by simp [serList], Or.inl ⟨rfl, rfl⟩⟩
  | cons z zt => exact ⟨',' :: serList (z :: zt), by simp [serList], Or.inr ⟨by simp, rfl⟩⟩

theorem serList_head_not_closer {y : Json} {yt : List Json} {r rest : List Char}
    {c0 : Char} (hcl : Closer c0)
    (h : c0 :: rest = serList (y :: yt) ++ r) : False := by
  obtain ⟨X, hX, -⟩ := serList_cons y yt
  obtain ⟨c, t, hct, hk⟩ := ser_head_kind y
  rw [hX, hct] at h
  simp only [List.append_assoc, List.cons_append, List.cons.injEq] at h
  have h6 : kindCh c0 = 6 := by
    rcases hcl with rfl | rfl | rfl <;> decide
  have := kindJ_le y
  rw [← h.1, h6] at hk
  omega

theorem serList_cancel (xs : List Json) (H : ∀ x ∈ xs, CancelProp x) :
    ∀ ys r s, serList xs ++ ']' :: r = serList ys ++ ']' :: s →
      xs = ys ∧ r = s := by
  induction xs with
  | nil =>
    intro ys r s h
    cases ys with
    | nil =>
      simp only [serList, List.nil_append, List.cons.injEq, true_and] at h
      exact ⟨rfl, h⟩
    | cons y yt =>
      exfalso
      exact serList_head_not_closer (Or.inr (Or.inl rfl)) (by simpa [serList] using h)
  | cons x xt ih =>
    intro ys r s h
    cases ys with
    | nil =>
      exfalso
      exact serList_head_not_closer (Or.inr (Or.inl rfl)) (by simpa [serList] using h.symm)
    | cons y yt =>
      obtain ⟨X1, hX1, hc1⟩ := serList_cons x xt
      obtain ⟨X2, hX2, hc2⟩ := serList_cons y yt
      rw [hX1, hX2] at h
      rw [List.append_assoc, List.append_assoc] at h
      have hF1 : Follows (X1 ++ ']' :: r) := by
        rcases hc1 with ⟨-, rfl⟩ | ⟨-, rfl⟩
        · exact Or.inr ⟨']', r, rfl, Or.inr (Or.inl rfl)⟩
        · exact Or.inr ⟨',', _, rfl, Or.inl rfl⟩
      have hF2 : Follows (X2 ++ ']' :: s) := by
        rcases hc2 with ⟨-, rfl⟩ | ⟨-, rfl⟩
        · exact Or.inr ⟨']', s, rfl, Or.inr (Or.inl rfl)⟩
        · exact Or.inr ⟨',', _, rfl, Or.inl rfl⟩
      obtain ⟨hxy, hXr⟩ := H x (by simp) y _ _ hF1 hF2 h
      rcases hc1 with ⟨hxt, rfl⟩ | ⟨hxt, rfl⟩ <;> rcases hc2 with ⟨hyt, rfl⟩ | ⟨hyt, rfl⟩
      · simp only [List.nil_append, List.cons.injEq, true_and] at hXr
        rw [hxt, hyt, hxy]
        exact ⟨rfl, hXr⟩
      · exfalso
        simp only [List.nil_append, List.cons_append, List.cons.injEq] at hXr
        exact absurd hXr.1 (by decide)
      · exfalso
        simp only [List.nil_append, List.cons_append, List.cons.injEq] at hXr
        exact absurd hXr.1 (by decide)
      · simp only [List.cons_append, List.cons.injEq, true_and] at hXr
        obtain ⟨hteq, hrs⟩ := ih (fun z hz => H z (by simp [hz])) yt r s hXr
        rw [hxy, hteq]
        exact ⟨rfl, hrs⟩

theorem serObj_cons (k : List Char) (v : Json) (t : List (List Char × Json)) :
    ∃ X, serObj ((k, v) :: t) = serStr k ++ ':' :: (ser v ++ X) ∧
      ((t = [] ∧ X = []) ∨ (t ≠ [] ∧ X = ',' :: serObj t)) := by
  cases t with
  | nil => exact ⟨[], by simp [serObj], Or.inl ⟨rfl, rfl⟩⟩
  | cons q qt =>
    exact ⟨',' :: serObj (q :: qt), by simp [serObj], Or.inr ⟨by simp, rfl⟩⟩

theorem serObj_head_not_closer {k : List Char} {v : Json}
    {t : List (List Char × Json)} {r rest : List Char} {c0 : Char}
    (hcl : Closer c0) (h : c0 :: rest = serObj ((k, v) :: t) ++ r) : False := by
  obtain ⟨X, hX, -⟩ := serObj_cons k v t
  rw [hX] at h
  simp only [serStr, List.cons_append, List.append_assoc, List.cons.injEq] at h
  rcases hcl with rfl | rfl | rfl <;> exact absurd h.1 (by decide)

theorem serObj_cancel (kvs : List (List Char × Json))
    (H : ∀ kv ∈ kvs, CancelProp kv.2) :
    ∀ lvs r s, serObj kvs ++ rbrace :: r = serObj lvs ++ rbrace :: s →
      kvs = lvs ∧ r = s := by
  induction kvs with
  | nil =>
    intro lvs r s h
    cases lvs with
    | nil =>
      simp only [serObj, List.nil_append, List.cons.injEq, true_and] at h
      exact ⟨rfl, h⟩
    | cons q qt =>
      exfalso
      obtain ⟨k2, v2⟩ := q
      exact serObj_head_not_closer (Or.inr (Or.inr rfl)) (by simpa [serObj] using h)
  | cons p pt ih =>
    obtain ⟨k1, v1⟩ := p
    intro lvs r s h
    cases lvs with
    | nil =>
      exfalso
      exact serObj_head_not_closer (Or.inr (Or.inr rfl)) (by simpa [serObj] using h.symm)
    | cons q qt =>
      obtain ⟨k2, v2⟩ := q
      obtain ⟨X1, hX1, hc1⟩ := serObj_cons k1 v1 pt
      obtain ⟨X2, hX2, hc2⟩ := serObj_cons k2 v2 qt
      rw [hX1, hX2, List.append_assoc, List.append_assoc] at h
      obtain ⟨hk, h2⟩ := serStr_cancel h
      simp only [List.cons_append, List.cons.injEq, true_and, List.append_assoc] at h2
      have hF1 : Follows (X1 ++ rbrace :: r) := by
        rcases hc1 with ⟨-, rfl⟩ | ⟨-, rfl⟩
        · exact Or.inr ⟨rbrace, r, rfl, Or.inr (Or.inr rfl)⟩
        · exact Or.inr ⟨',', _, rfl, Or.inl rfl⟩
      have hF2 : Follows (X2 ++ rbrace :: s) := by
        rcases hc2 with ⟨-, rfl⟩ | ⟨-, rfl⟩
        · exact Or.inr ⟨rbrace, s, rfl, Or.inr (Or.inr rfl)⟩
        · exact Or.inr ⟨',', _, rfl, Or.inl rfl⟩
      obtain ⟨hv0, hXr⟩ := H (k1, v1) (by simp) v2 _ _ hF1 hF2 h2
      have hv : v1 = v2 := hv0
      rcases hc1 with ⟨hpt, rfl⟩ | ⟨hpt, rfl⟩ <;> rcases hc2 with ⟨hqt, rfl⟩ | ⟨hqt, rfl⟩
      · simp only [List.nil_append, List.cons.injEq, true_and] at hXr
        rw [hpt, hqt, hk, hv]
        exact ⟨rfl, hXr⟩
      · exfalso
        simp only [List.nil_append, List.cons_append, List.cons.injEq] at hXr
        exact absurd hXr.1 (by decide)
      · exfalso
        simp only [List.nil_append, List.cons_append, List.cons.injEq] at hXr
        exact absurd hXr.1 (by decide)
      · simp only [List.cons_append, List.cons.injEq, true_and] at hXr
        obtain ⟨hteq, hrs⟩ := ih (fun z hz => H z (by simp [hz])) qt r s hXr
        rw [hk, hv, hteq]
        exact ⟨rfl, hrs⟩

theorem json_sizeOf_pos (x : Json) : 1 ≤ sizeOf x := by
  cases x <;> simp

theorem ser_cancel_all : ∀ (N : Nat) (x : Json), sizeOf x ≤ N → CancelProp x := by
  intro N
  induction N with
  | zero =>
    intro x hx
    have := json_sizeOf_pos x
    omega
  | succ N ihN =>
    intro x hx y r s hr hs h
    have hk := ser_kind_eq h
    cases x <;> cases y <;>
      try (exfalso; simp only [kindJ] at hk; exact absurd hk (by decide))
    · exact ⟨rfl, List.append_cancel_left h⟩
    · rename_i b b'
      cases b <;> cases b'
      · exact ⟨rfl, List.append_cancel_left h⟩
      · exfalso
        simp only [ser, List.cons_append, List.cons.injEq] at h
        exact absurd h.1 (by decide)
      · exfalso
        simp only [ser, List.cons_append, List.cons.injEq] at h
        exact absurd h.1 (by decide)
      · exact ⟨rfl, List.append_cancel_left h⟩
    · rename_i n m
      simp only [ser] at h
      obtain ⟨hnm, hrs⟩ := intChars_cancel hr hs h
      exact ⟨by rw [hnm], hrs⟩
    · rename_i a b
      simp only [ser] at h
      obtain ⟨hab, hrs⟩ := serStr_cancel h
      exact ⟨by rw [hab], hrs⟩
    · rename_i xs ys
      simp only [ser, List.cons_append, List.append_assoc, List.cons.injEq,
        true_and, List.singleton_append] at h
      have H : ∀ x' ∈ xs, CancelProp x' := by
        intro x' hx'
        have h1 := List.sizeOf_lt_of_mem hx'
        have h2 : sizeOf (Json.arr xs) = 1 + sizeOf xs := by simp
        exact ihN x' (by omega)
      obtain ⟨hxy, hrs⟩ := serList_cancel xs H ys r s h
      exact ⟨by rw [hxy], hrs⟩
    · rename_i kvs lvs
      simp only [ser, List.cons_append, List.append_assoc, List.cons.injEq,
        true_and, List.singleton_append] at h
      have H : ∀ kv ∈ kvs, CancelProp kv.2 := by
        intro kv hkv
        obtain ⟨k, v⟩ := kv
        have h1 := List.sizeOf_lt_of_mem hkv
        have h2 : sizeOf (Json.obj kvs) = 1 + sizeOf kvs := by simp
        have h3 : sizeOf ((k, v) : List Char × Json) = 1 + sizeOf k + sizeOf v := by simp
        exact ihN v (by omega)
      obtain ⟨hxy, hrs⟩ := serObj_cancel kvs H lvs r s h
      exact ⟨by rw [hxy], hrs⟩

/-- The order-preserving serialiser is injective. -/
theorem ser_inj {x y : Json} (h : ser x = ser y) : x = y :=
  (ser_cancel_all (sizeOf x) x le_rfl y [] [] (Or.inl rfl) (Or.inl rfl)
    (by simp [h])).1

instance : DecidableEq Json := fun x y =>
  decidable_of_iff (ser x = ser y) ⟨ser_inj, fun h => by rw [h]⟩

theorem lexLt_cons {x y : Char} {as bs : List Char} :
    lexLt (x :: as) (y :: bs) = true ↔
      (x.toNat < y.toNat ∨ (x = y ∧ lexLt as bs = true)) := by
  constructor
  · intro h
    by_cases h1 : x.toNat < y.toNat
    · exact Or.inl h1
    · by_cases h2 : y.toNat < x.toNat
      · simp [lexLt, h1, h2] at h
      · exact Or.inr ⟨char_toNat_inj (by omega), by simpa [lexLt, h1, h2] using h⟩
  · intro h
    rcases h with h | ⟨rfl, h⟩
    · simp [lexLt, h]
    · simp [lexLt, h]

theorem lexLt_irrefl (a : List Char) : lexLt a a = false := by
  induction a with
  | nil => rfl
  | cons c t ih =>
    rw [show lexLt (c :: t) (c :: t)
          = (if c.toNat < c.toNat then true
             else if c.toNat < c.toNat then false else lexLt t t) from rfl]
    simp [ih]

theorem lexLt_trans {a b c : List Char} (h1 : lexLt a b = true)
    (h2 : lexLt b c = true) : lexLt a c = true := by
  induction a generalizing b c with
  | nil =>
    cases b with
    | nil => simp [lexLt] at h1
    | cons y bs =>
      cases c with
      | nil => simp [lexLt] at h2
      | cons z cs => rfl
  | cons x as ih =>
    cases b with
    | nil => simp [lexLt] at h1
    | cons y bs =>
      cases c with
      | nil => simp [lexLt] at h2
      | cons z cs =>
        rcases lexLt_cons.mp h1 with hlt1 | ⟨rfl, ht1⟩ <;>
          rcases lexLt_cons.mp h2 with hlt2 | ⟨heq2, ht2⟩
        · exact lexLt_cons.mpr (Or.inl (by omega))
        · rw [← heq2]
          exact lexLt_cons.mpr (Or.inl hlt1)
        · exact lexLt_cons.mpr (Or.inl hlt2)
        · subst heq2
          exact lexLt_cons.mpr (Or.inr ⟨rfl, ih ht1 ht2⟩)

theorem lexLt_asymm {a b : List Char} (h1 : lexLt a b = true)
    (h2 : lexLt b a = true) : False := by
  have := lexLt_trans h1 h2
  rw [lexLt_irrefl] at this
  cases this

theorem lexLt_total {a b : List Char} (hne : a ≠ b)
    (h1 : lexLt a b = false) : lexLt b a = true := by
  induction a generalizing b with
  | nil =>
    cases b with
    | nil => exact absurd rfl hne
    | cons y bs => simp [lexLt] at h1
  | cons x as ih =>
    cases b with
    | nil => rfl
    | cons y bs =>
      by_cases hc : x.toNat < y.toNat
      · exact absurd ((@lexLt_cons x y as bs).mpr (Or.inl hc)) (by simp [h1])
      · by_cases hc2 : y.toNat < x.toNat
        · exact lexLt_cons.mpr (Or.inl hc2)
        · have hxy : x = y := char_toNat_inj (by omega)
          subst hxy
          have hne2 : as ≠ bs := fun e => hne (by rw [e])
          have ht : lexLt as bs = false := by
            by_cases hl : lexLt as bs = true
            · exact absurd ((@lexLt_cons x x as bs).mpr (Or.inr ⟨rfl, hl⟩)) (by simp [h1])
            · simpa using hl
          exact lexLt_cons.mpr (Or.inr ⟨rfl, ih hne2 ht⟩)

/-- Python finds the binding of a key in a dict; on our association lists
the first (and with duplicate-free keys, only) binding wins. -/
def lookupKey (k : List Char) : List (List Char × Json) → Option Json
  | [] => none
  | (k', v) :: t => if k' = k then some v else lookupKey k t

theorem lookupKey_mem {k : List Char} {l : List (List Char × Json)} {v : Json}
    (h : lookupKey k l = some v) : (k, v) ∈ l := by
  induction l with
  | nil => simp [lookupKey] at h
  | cons p t ih =>
    obtain ⟨k', v'⟩ := p
    by_cases he : k' = k
    · subst he
      have h' : v' = v := by simpa [lookupKey] using h
      subst h'
      exact List.mem_cons_self _ _
    · simp only [lookupKey, if_neg he] at h
      exact List.mem_cons_of_mem _ (ih h)

theorem lookupKey_eq_none {k : List Char} {l : List (List Char × Json)} :
    lookupKey k l = none ↔ ∀ v, (k, v) ∉ l := by
  induction l with
  | nil => simp [lookupKey]
  | cons p t ih =>
    obtain ⟨k', v'⟩ := p
    by_cases he : k' = k
    · subst he
      constructor
      · intro h
        exact absurd h (by simp [lookupKey])
      · intro h
        exact absurd (List.mem_cons_self (k', v') t) (h v')
    · constructor
      · intro h v hv
        rcases List.mem_cons.mp hv with hv | hv
        · exact he (by cases hv; rfl)
        · exact ih.mp (by simpa [lookupKey, he] using h) v hv
      · intro h
        have h2 : lookupKey k t = none :=
          ih.mpr (fun v hv => h v (List.mem_cons_of_mem _ hv))
        simpa [lookupKey, he] using h2

theorem lookupKey_of_mem {k : List Char} {v : Json} {l : List (List Char × Json)}
    (hnd : (l.map Prod.fst).Nodup) (hm : (k, v) ∈ l) : lookupKey k l = some v := by
  induction l with
  | nil => simp at hm
  | cons p t ih =>
    obtain ⟨k', v'⟩ := p
    simp only [List.map_cons, List.nodup_cons] at hnd
    rcases List.mem_cons.mp hm with he | hm2
    · cases he
      simp [lookupKey]
    · have hne : k' ≠ k := by
        intro e
        subst e
        exact hnd.1 (List.mem_map.mpr ⟨(k', v), hm2, rfl⟩)
      simp only [lookupKey, if_neg hne]
      exact ih hnd.2 hm2

theorem mem_val_unique {k : List Char} {v w : Json} {l : List (List Char × Json)}
    (hnd : (l.map Prod.fst).Nodup) (h1 : (k, v) ∈ l) (h2 : (k, w) ∈ l) : v = w := by
  have e1 := lookupKey_of_mem hnd h1
  have e2 := lookupKey_of_mem hnd h2
  rw [e1] at e2
  exact Option.some.inj e2

theorem lookupKey_perm {l l' : List (List Char × Json)} (hp : l.Perm l')
    (hnd : (l.map Prod.fst).Nodup) (k : List Char) :
    lookupKey k l = lookupKey k l' := by
  induction hp with
  | nil => rfl
  | cons p t ih =>
    obtain ⟨k', v'⟩ := p
    simp only [List.map_cons, List.nodup_cons] at hnd
    by_cases he : k' = k
    · subst he
      simp [lookupKey]
    · simp only [lookupKey, if_neg he]
      exact ih hnd.2
  | swap p q t =>
    obtain ⟨k1, v1⟩ := p
    obtain ⟨k2, v2⟩ := q
    have h12 : k2 ≠ k1 := by
      simp only [List.map_cons, List.nodup_cons, List.mem_cons, List.mem_map] at hnd
      intro e
      exact hnd.1 (Or.inl e)
    by_cases h1 : k1 = k <;> by_cases h2 : k2 = k
    · exact absurd (h2.trans h1.symm) h12
    · simp [lookupKey, h1, h2]
    · simp [lookupKey, h1, h2]
    · simp [lookupKey, h1, h2]
  | trans hp1 hp2 ih1 ih2 =>
    rw [ih1 hnd, ih2 (((hp1.map Prod.fst).nodup_iff).mp hnd)]

/-- Strict key order between two bindings. -/
def KLt (p q : List Char × Json) : Prop := lexLt p.1 q.1 = true

theorem insertKV_perm (p : List Char × Json) (l : List (List Char × Json)) :
    (insertKV p l).Perm (p :: l) := by
  induction l with
  | nil => rfl
  | cons q t ih =>
    by_cases h : lexLt q.1 p.1
    · simp only [insertKV, if_pos h]
      exact (ih.cons q).trans (List.Perm.swap p q t)
    · simp only [insertKV, if_neg h]
      exact List.Perm.refl _

theorem sortKVs_perm (l : List (List Char × Json)) : (sortKVs l).Perm l := by
  induction l with
  | nil => rfl
  | cons p t ih =>
    exact (insertKV_perm p (sortKVs t)).trans (ih.cons p)

theorem insertKV_pairwise {p : List Char × Json} {l : List (List Char × Json)}
    (hs : l.Pairwise KLt) (hne : ∀ q ∈ l, p.1 ≠ q.1) :
    (insertKV p l).Pairwise KLt := by
  induction l with
  | nil => simp [insertKV, List.pairwise_singleton]
  | cons q t ih =>
    rcases List.pairwise_cons.mp hs with ⟨hq, ht⟩
    by_cases h : lexLt q.1 p.1
    · simp only [insertKV, if_pos h]
      refine List.pairwise_cons.mpr ⟨?_, ih ht (fun z hz => hne z (by simp [hz]))⟩
      intro z hz
      rcases List.mem_cons.mp ((insertKV_perm p t).mem_iff.mp hz) with rfl | hzt
      · exact h
      · exact hq z hzt
    · simp only [insertKV, if_neg h]
      have hqp : lexLt q.1 p.1 = false := by simpa using h
      have hpq : KLt p q := lexLt_total (Ne.symm (hne q (by simp))) hqp
      refine List.pairwise_cons.mpr ⟨?_, hs⟩
      intro z hz
      rcases List.mem_cons.mp hz with rfl | hzt
      · exact hpq
      · exact lexLt_trans hpq (hq z hzt)

theorem sortKVs_pairwise {l : List (List Char × Json)}
    (hnd : (l.map Prod.fst).Nodup) : (sortKVs l).Pairwise KLt := by
  induction l with
  | nil => simp [sortKVs]
  | cons p t ih =>
    simp only [List.map_cons, List.nodup_cons] at hnd
    refine insertKV_pairwise (ih hnd.2) ?_
    intro q hq e
    have hqt : q ∈ t := (sortKVs_perm t).mem_iff.mp hq
    exact hnd.1 (by rw [e]; exact List.mem_map.mpr ⟨q, hqt, rfl⟩)

theorem pairwise_head_lookup_none {k : List Char} {v : Json}
    {t : List (List Char × Json)} (h : ((k, v) :: t).Pairwise KLt) :
    lookupKey k t = none := by
  cases hl : lookupKey k t with
  | none => rfl
  | some w =>
    have hm := lookupKey_mem hl
    have h2 : lexLt k k = true := (List.pairwise_cons.mp h).1 _ hm
    rw [lexLt_irrefl] at h2
    cases h2

theorem sorted_lookup_ext : ∀ (a b : List (List Char × Json)),
    a.Pairwise KLt → b.Pairwise KLt →
    (∀ k, lookupKey k a = lookupKey k b) → a = b := by
  intro a
  induction a with
  | nil =>
    intro b _ _ h
    cases b with
    | nil => rfl
    | cons q t =>
      obtain ⟨k2, v2⟩ := q
      have := h k2
      simp [lookupKey] at this
  | cons p t ih =>
    obtain ⟨k1, v1⟩ := p
    intro b ha hb h
    cases b with
    | nil =>
      have := h k1
      simp [lookupKey] at this
    | cons q t2 =>
      obtain ⟨k2, v2⟩ := q
      have hk : k1 = k2 := by
        by_contra hne
        have e1 : lookupKey k1 ((k2, v2) :: t2) = some v1 := by
          rw [← h k1]
          simp [lookupKey]
        have e2 : lookupKey k2 ((k1, v1) :: t) = some v2 := by
          rw [h k2]
          simp [lookupKey]
        have m1 : (k1, v1) ∈ t2 :=
          lookupKey_mem (by simpa [lookupKey, Ne.symm hne] using e1)
        have m2 : (k2, v2) ∈ t :=
          lookupKey_mem (by simpa [lookupKey, hne] using e2)
        exact lexLt_asymm ((List.pairwise_cons.mp ha).1 _ m2)
          ((List.pairwise_cons.mp hb).1 _ m1)
      subst hk
      have hv : v1 = v2 := by
        have := h k1
        simpa [lookupKey] using this
      subst hv
      have htl : t = t2 := by
        refine ih t2 (List.pairwise_cons.mp ha).2 (List.pairwise_cons.mp hb).2 ?_
        intro k
        by_cases hke : k1 = k
        · subst hke
          rw [pairwise_head_lookup_none ha, pairwise_head_lookup_none hb]
        · have := h k
          simpa [lookupKey, hke] using this
      rw [htl]

theorem sortJsonKVs_map (l : List (List Char × Json)) :
    sortJsonKVs l = l.map (fun p => (p.1, sortJson p.2)) := by
  induction l with
  | nil => simp [sortJsonKVs]
  | cons p t ih =>
    obtain ⟨k, v⟩ := p
    simp [sortJsonKVs, ih]

theorem sortJsonKVs_keys (l : List (List Char × Json)) :
    (sortJsonKVs l).map Prod.fst = l.map Prod.fst := by
  rw [sortJsonKVs_map, List.map_map]
  rfl

theorem lookupKey_sortJsonKVs (k : List Char) (l : List (List Char × Json)) :
    lookupKey k (sortJsonKVs l) = (lookupKey k l).map sortJson := by
  induction l with
  | nil => simp [sortJsonKVs, lookupKey]
  | cons p t ih =>
    obtain ⟨k', v⟩ := p
    by_cases he : k' = k
    · subst he
      simp [sortJsonKVs, lookupKey]
    · simp [sortJsonKVs, lookupKey, he, ih]

theorem lookupKey_sortKVs {l : List (List Char × Json)}
    (hnd : (l.map Prod.fst).Nodup) (k : List Char) :
    lookupKey k (sortKVs l) = lookupKey k l := by
  refine lookupKey_perm (sortKVs_perm l) ?_ k
  exact (((sortKVs_perm l).map Prod.fst).nodup_iff).mpr hnd

theorem wfJsonList_elem {xs : List Json} (h : wfJsonList xs = true) :
    ∀ x ∈ xs, wfJson x = true := by
  induction xs with
  | nil => simp
  | cons z t ih =>
    simp only [wfJsonList, Bool.and_eq_true] at h
    intro x hx
    rcases List.mem_cons.mp hx with rfl | hx
    · exact h.1
    · exact ih h.2 x hx

theorem wfJsonKVs_elem {l : List (List Char × Json)} (h : wfJsonKVs l = true) :
    ∀ p ∈ l, wfJson p.2 = true := by
  induction l with
  | nil => simp
  | cons q t ih =>
    obtain ⟨k, v⟩ := q
    simp only [wfJsonKVs, Bool.and_eq_true] at h
    intro p hp
    rcases List.mem_cons.mp hp with rfl | hp
    · exact h.1
    · exact ih h.2 p hp

theorem wf_obj_parts {l : List (List Char × Json)} (h : wfJson (.obj l) = true) :
    (l.map Prod.fst).Nodup ∧ wfJsonKVs l = true := by
  simp only [wfJson, Bool.and_eq_true, decide_eq_true_eq] at h
  exact h

theorem mem_sortJsonKVs_of_mem {k : List Char} {v : Json}
    {l : List (List Char × Json)} (h : (k, v) ∈ l) :
    (k, sortJson v) ∈ sortJsonKVs l := by
  rw [sortJsonKVs_map]
  exact List.mem_map.mpr ⟨(k, v), h, rfl⟩

theorem mem_of_mem_sortJsonKVs {k : List Char} {w : Json}
    {l : List (List Char × Json)} (h : (k, w) ∈ sortJsonKVs l) :
    ∃ v, (k, v) ∈ l ∧ w = sortJson v := by
  rw [sortJsonKVs_map] at h
  obtain ⟨⟨k', v⟩, hm, he⟩ := List.mem_map.mp h
  obtain ⟨rfl, rfl⟩ := Prod.mk.injEq .. |>.mp he
  exact ⟨v, hm, rfl⟩

theorem structEqObj_iff (a : List (List Char × Json))
    (IH : ∀ p ∈ a, ∀ w, wfJson p.2 = true → wfJson w = true →
      (structEq p.2 w ↔ sortJson p.2 = sortJson w))
    (hwa : wfJson (.obj a) = true) (b : List (List Char × Json))
    (hwb : wfJson (.obj b) = true) :
    (((∀ k : List Char, (∃ v, (k, v) ∈ a) ↔ (∃ w, (k, w) ∈ b)) ∧
      (∀ k v w, (k, v) ∈ a → (k, w) ∈ b → structEq v w)) ↔
      sortKVs (sortJsonKVs a) = sortKVs (sortJsonKVs b)) := by
  obtain ⟨hnda, hwva⟩ := wf_obj_parts hwa
  obtain ⟨hndb, hwvb⟩ := wf_obj_parts hwb
  have hnda' : ((sortJsonKVs a).map Prod.fst).Nodup := by
    rw [sortJsonKVs_keys]
    exact hnda
  have hndb' : ((sortJsonKVs b).map Prod.fst).Nodup := by
    rw [sortJsonKVs_keys]
    exact hndb
  constructor
  · rintro ⟨hks, hvs⟩
    apply sorted_lookup_ext _ _ (sortKVs_pairwise hnda') (sortKVs_pairwise hndb')
    intro k
    rw [lookupKey_sortKVs hnda', lookupKey_sortKVs hndb',
      lookupKey_sortJsonKVs, lookupKey_sortJsonKVs]
    cases hla : lookupKey k a with
    | none =>
      have hlb : lookupKey k b = none := by
        rw [lookupKey_eq_none] at hla ⊢
        intro w hw
        obtain ⟨v, hv⟩ := (hks k).mpr ⟨w, hw⟩
        exact hla v hv
      rw [hlb]
    | some v =>
      have hma : (k, v) ∈ a := lookupKey_mem hla
      obtain ⟨w, hmb⟩ := (hks k).mp ⟨v, hma⟩
      have hlb : lookupKey k b = some w := lookupKey_of_mem hndb hmb
      rw [hlb]
      have hse : structEq v w := hvs k v w hma hmb
      have h2 : sortJson v = sortJson w :=
        (IH (k, v) hma w (wfJsonKVs_elem hwva _ hma) (wfJsonKVs_elem hwvb _ hmb)).mp hse
      simp [h2]
  · intro heq
    have hperm : (sortJsonKVs a).Perm (sortJsonKVs b) :=
      (sortKVs_perm (sortJsonKVs a)).symm.trans
        (heq ▸ sortKVs_perm (sortJsonKVs b))
    constructor
    · intro k
      constructor
      · rintro ⟨v, hv⟩
        have := hperm.mem_iff.mp (mem_sortJsonKVs_of_mem hv)
        obtain ⟨w, hw, -⟩ := mem_of_mem_sortJsonKVs this
        exact ⟨w, hw⟩
      · rintro ⟨w, hw⟩
        have := hperm.symm.mem_iff.mp (mem_sortJsonKVs_of_mem hw)
        obtain ⟨v, hv, -⟩ := mem_of_mem_sortJsonKVs this
        exact ⟨v, hv⟩
    · intro k v w hva hwb2
      have := hperm.mem_iff.mp (mem_sortJsonKVs_of_mem hva)
      obtain ⟨w', hw', he'⟩ := mem_of_mem_sortJsonKVs this
      have hww : w' = w := mem_val_unique hndb hw' hwb2
      subst hww
      exact (IH (k, v) hva w' (wfJsonKVs_elem hwva _ hva)
        (wfJsonKVs_elem hwvb _ hw')).mpr he'

theorem structEqList_iff (xs : List Json)
    (IH : ∀ x ∈ xs, ∀ y, wfJson x = true → wfJson y = true →
      (structEq x y ↔ sortJson x = sortJson y))
    (hwx : wfJsonList xs = true) :
    ∀ ys, wfJsonList ys = true →
      ((xs.length = ys.length ∧ ∀ p ∈ xs.zip ys, structEq p.1 p.2) ↔
        sortJsonList xs = sortJsonList ys) := by
  induction xs with
  | nil =>
    intro ys _
    cases ys with
    | nil => simp [sortJsonList]
    | cons y yt => simp [sortJsonList]
  | cons x xt ih =>
    intro ys hwy
    cases ys with
    | nil => simp [sortJsonList]
    | cons y yt =>
      simp only [wfJsonList, Bool.and_eq_true] at hwx hwy
      have IHx := IH x (by simp)
      have IHt : ∀ z ∈ xt, ∀ y, wfJson z = true → wfJson y = true →
          (structEq z y ↔ sortJson z = sortJson y) :=
        fun z hz => IH z (by simp [hz])
      have ihr := ih IHt hwx.2 yt hwy.2
      simp only [sortJsonList, List.cons.injEq, List.length_cons,
        List.zip_cons_cons, List.mem_cons]
      constructor
      · rintro ⟨hlen, hall⟩
        refine ⟨(IHx y hwx.1 hwy.1).mp (hall (x, y) (Or.inl rfl)), ?_⟩
        exact ihr.mp ⟨by omega, fun p hp => hall p (Or.inr hp)⟩
      · rintro ⟨h1, h2⟩
        obtain ⟨hlen, hall⟩ := ihr.mpr h2
        refine ⟨by omega, ?_⟩
        intro p hp
        rcases hp with rfl | hp
        · exact (IHx y hwx.1 hwy.1).mpr h1
        · exact hall p hp

theorem structEq_iff_sortJson_all :
    ∀ (N : Nat) (x : Json), sizeOf x ≤ N → ∀ (y : Json),
      wfJson x = true → wfJson y = true →
      (structEq x y ↔ sortJson x = sortJson y) := by
  intro N
  induction N with
  | zero =>
    intro x hx
    have := json_sizeOf_pos x
    omega
  | succ N ihN =>
    intro x hx y hwx hwy
    cases x <;> cases y <;>
      try (simp [structEq, sortJson]; done)
    · rename_i xs ys
      rw [structEq]
      simp only [sortJson, Json.arr.injEq]
      have IH : ∀ x ∈ xs, ∀ y, wfJson x = true → wfJson y = true →
          (structEq x y ↔ sortJson x = sortJson y) := by
        intro x' hx' y'
        have h1 := List.sizeOf_lt_of_mem hx'
        have h2 : sizeOf (Json.arr xs) = 1 + sizeOf xs := by simp
        exact ihN x' (by omega) y'
      exact structEqList_iff xs IH (by simpa [wfJson] using hwx) ys
        (by simpa [wfJson] using hwy)
    · rename_i a b
      rw [structEq]
      simp only [sortJson, Json.obj.injEq]
      have IH : ∀ p ∈ a, ∀ w, wfJson p.2 = true → wfJson w = true →
          (structEq p.2 w ↔ sortJson p.2 = sortJson w) := by
        intro p hp w
        obtain ⟨k, v⟩ := p
        have h1 := List.sizeOf_lt_of_mem hp
        have h2 : sizeOf (Json.obj a) = 1 + sizeOf a := by simp
        have h3 : sizeOf ((k, v) : List Char × Json) = 1 + sizeOf k + sizeOf v := by simp
        exact ihN v (by omega) w
      exact structEqObj_iff a IH hwx b hwy

/-- Canonical serialisations agree exactly on structurally equal
well-formed JSON trees. -/
theorem canonical_iff_structEq {x y : Json}
    (hx : wfJson x = true) (hy : wfJson y = true) :
    canonical_json x = canonical_json y ↔ structEq x y := by
  rw [canonical_json, canonical_json]
  constructor
  · intro h
    exact (structEq_iff_sortJson_all (sizeOf x) x le_rfl y hx hy).mpr (ser_inj h)
  · intro h
    rw [(structEq_iff_sortJson_all (sizeOf x) x le_rfl y hx hy).mp h]

deriving instance DecidableEq for Except

/-- Shorthand for string literals as character lists. -/
def toL (s : String) : List Char := s.data

/-- Python whitespace for `str.strip()` (the ASCII whitespace characters;
the ids and entries this gate strips are ASCII). -/
def isPySpace (c : Char) : Bool :=
  c = ' ' || c.toNat = 9 || c.toNat = 10 || c.toNat = 13 || c.toNat = 11 || c.toNat = 12

/-- Python `str.strip()`: remove leading and trailing whitespace. -/
def stripChars (s : List Char) : List Char :=
  ((s.dropWhile isPySpace).reverse.dropWhile isPySpace).reverse

/-- Python truthiness `bool(x)` of a JSON value. -/
def pyTruthy : Json → Bool
  | .null => false
  | .bool b => b
  | .num n => n != 0
  | .str s => !s.isEmpty
  | .arr xs => !xs.isEmpty
  | .obj kvs => !kvs.isEmpty

/-- One character of a Python `repr` of a string, for quote character `q`.
`str.isprintable` is modelled on its ASCII behaviour (non-ASCII printable
characters are printed literally, as CPython does for letters). -/
def pyReprEsc (q : Char) (c : Char) : List Char :=
  if c = '\\' then ['\\', '\\']
  else if c = q then ['\\', q]
  else if c.toNat = 10 then ['\\', 'n']
  else if c.toNat = 13 then ['\\', 'r']
  else if c.toNat = 9 then ['\\', 't']
  else if c.toNat < 32 || c.toNat = 127 then
    ['\\', 'x', hexCh (c.toNat / 16), hexCh (c.toNat % 16)]
  else [c]

def pyReprEscList (q : Char) : List Char → List Char
  | [] => []
  | c :: t => pyReprEsc q c ++ pyReprEscList q t

/-- Python `repr` of a string: single quotes, unless the string contains a
single quote and no double quote. -/
def pyReprStr (s : List Char) : List Char :=
  let q : Char := if s.contains '\'' && !(s.contains '\"') then '\"' else '\''
  q :: pyReprEscList q s ++ [q]

mutual

/-- Python `repr` of a JSON-representable value. -/
def pyRepr : Json → List Char
  | .null => toL "None"
  | .bool true => toL "True"
  | .bool false => toL "False"
  | .num n => intChars n
  | .str s => pyReprStr s
  | .arr xs => '[' :: pyReprList xs ++ [']']
  | .obj kvs => lbrace :: pyReprObj kvs ++ [rbrace]

def pyReprList : List Json → List Char
  | [] => []
  | [x] => pyRepr x
  | x :: y :: t => pyRepr x ++ ',' :: ' ' :: pyReprList (y :: t)

def pyReprObj : List (List Char × Json) → List Char
  | [] => []
  | [(k, v)] => pyReprStr k ++ ':' :: ' ' :: pyRepr v
  | (k, v) :: q :: t => pyReprStr k ++ ':' :: ' ' :: pyRepr v ++ ',' :: ' ' :: pyReprObj (q :: t)

end

/-- Python `str(x)`: the string itself for strings, `repr` otherwise. -/
def pyStr : Json → List Char
  | .str s => s
  | x => pyRepr x

/-- `dict.get(k)` on a JSON object's association list: the binding, or
`None`. -/
def dictGet (kvs : List (List Char × Json)) (k : List Char) : Json :=
  match lookupKey k kvs with
  | some v => v
  | none => .null

/-- Draft lifecycle states (`domain/enums.py`, `DraftStatus`). -/
inductive DraftStatus where
  | drafting
  | approvedLocked
  | archived
deriving DecidableEq

/-- Tool risk tiers (`domain/enums.py`, `RiskLevel`). -/
inductive RiskLevel where
  | low
  | medium
  | high
deriving DecidableEq

/-- A `ValueError` (or locked-draft `HTTPException`) with its message, the
single error currency of the approval and execution services. -/
inductive PyErr where
  | valueError (msg : List Char)
deriving DecidableEq

/-- A stored `ToolPlan` row.  `planObj` stands for the stored
`json_canonical` text through the JSON value it parses back to: the text is
`ser planObj` and `json.loads` of it returns `planObj` itself (so a plan
written by `upsert_tool_plan` stores the key-sorted tree `sortJson` of the
submitted object).  `contentHash` is the stored `content_hash` column. -/
structure ToolPlanRec where
  planObj : Json
  contentHash : List Char
deriving DecidableEq

/-- A `Draft` row (the fields the gate reads). -/
structure DraftRec where
  title : List Char
  content : List Char
  status : DraftStatus
  toolPlan : Option ToolPlanRec
deriving DecidableEq

/-- An `Approval` row: the content-addressed snapshot. -/
structure ApprovalRec where
  draftHash : List Char
  toolplanHash : Option (List Char)
deriving DecidableEq

/-- The Execution row data `execute` creates once every check has passed
(audit timing fields and the tool run itself are outside the model). -/
structure ExecutionRec where
  tool_name : List Char
  requestInput : Json
  confirmation : Option Json
deriving DecidableEq

/-- `ApprovalService.upsert_tool_plan`: refuse unless the draft is
DRAFTING, else canonicalise the plan object, hash it, and overwrite or
create the draft's single ToolPlan.  `sha256_text` is passed as an explicit
function; the service computes `sha256_bytes(canon.encode())`, which equals
`sha256_text canon` here. -/
def upsert_tool_plan (sha256_text : List Char → List Char)
    (draft : DraftRec) (tool_plan_obj : Json) : Except PyErr DraftRec :=
  if draft.status ≠ .drafting then
    .error (.valueError (toL "Draft is locked"))
  else
    let canon := canonical_json tool_plan_obj
    let tp : ToolPlanRec := { planObj := sortJson tool_plan_obj, contentHash := sha256_text canon }
    .ok { draft with toolPlan := some tp }

/-- `ApprovalService.approve`: refuse unless DRAFTING; snapshot the hashes
of the current content and tool plan, create the Approval and lock the
draft. -/
def approve (sha256_text : List Char → List Char) (draft : DraftRec) :
    Except PyErr (DraftRec × ApprovalRec) :=
  if draft.status ≠ .drafting then
    .error (.valueError (toL "Draft already locked"))
  else
    let approval : ApprovalRec :=
      { draftHash := sha256_text draft.content
        toolplanHash := draft.toolPlan.map (fun tp => tp.contentHash) }
    .ok ({ draft with status := .approvedLocked }, approval)

/-- `update_draft` (`api/v1/drafts.py`): 409 on a locked draft, otherwise
apply the optional title/content updates. -/
def update_draft (title : Option (List Char)) (content : Option (List Char))
    (d : DraftRec) : Except PyErr DraftRec :=
  if d.status ≠ .drafting then
    .error (.valueError (toL "Draft is locked (approved)"))
  else
    .ok { d with title := title.getD d.title, content := content.getD d.content }

/-- Python `tool_input == {}`: a dict equals `{}` exactly when it is
empty. -/
def isEmptyDict : Json → Bool
  | .obj [] => true
  | _ => false

/-- The loop body of `_is_tool_input_approved`: skip non-dict actions,
skip actions with another tool, and compare the dict params canonically
against the wanted input. -/
def actionMatches (action : Json) (tool_name : List Char) (tool_input : Json) : Bool :=
  match action with
  | .obj akvs =>
    (match lookupKey (toL "tool") akvs with
     | some (.str t) => t == tool_name
     | _ => false) &&
    (match lookupKey (toL "params") akvs with
     | some (.obj pkvs) =>
       canonical_json (.obj pkvs) == canonical_json tool_input
     | _ => false)
  | _ => false

/-- `ExecutionService._is_tool_input_approved`: with no tool plan only `{}`
is approved; otherwise some action of the frozen plan must carry this tool
name and params whose canonical serialisation equals the input's. -/
def _is_tool_input_approved (toolPlan : Option ToolPlanRec)
    (tool_name : List Char) (tool_input : Json) : Bool :=
  match toolPlan with
  | none => isEmptyDict tool_input
  | some tp =>
    match tp.planObj with
    | .obj kvs =>
      match lookupKey (toL "actions") kvs with
      | some (.arr actions) =>
        actions.any fun action => actionMatches action tool_name tool_input
      | _ => false
    | _ => false

/-- `ExecutionService._extract_action_ids`: the stripped non-empty string
ids of the dict entries of `tool_input["actions"]`, when that is a list. -/
def _extract_action_ids (tool_input : Json) : List (List Char) :=
  match tool_input with
  | .obj kvs =>
    match lookupKey (toL "actions") kvs with
    | some (.arr actions) =>
      actions.filterMap fun action =>
        match action with
        | .obj akvs =>
          match lookupKey (toL "id") akvs with
          | some (.str s) =>
            if (stripChars s).isEmpty then none else some (stripChars s)
          | _ => none
        | _ => none
    | _ => []
  | _ => []

/-- The `approved_actions` set of a confirmation dict: the stripped
`str()`-coercions of the entries of a list value, dropping empties; any
non-list value gives the empty set. -/
def approved_actions_set (ckvs : List (List Char × Json)) : List (List Char) :=
  match lookupKey (toL "approved_actions") ckvs with
  | some (.arr xs) => (xs.map (fun x => stripChars (pyStr x))).filter (fun s => !s.isEmpty)
  | _ => []

/-- `ExecutionService._enforce_tool_policy`: LOW passes; MEDIUM/HIGH need a
dict confirmation; extracted action ids must all be approved; HIGH
additionally needs a truthy `allow_high_risk`. -/
def _enforce_tool_policy (risk : RiskLevel) (tool_input : Json)
    (confirmation : Option Json) : Except PyErr Unit :=
  if risk = .low then .ok ()
  else
    match confirmation with
    | some (.obj ckvs) =>
      let approved_actions := approved_actions_set ckvs
      let action_ids := _extract_action_ids tool_input
      if !action_ids.isEmpty && !(action_ids.all fun aid => approved_actions.contains aid) then
        .error (.valueError (toL "Confirmation payload is missing one or more approved action ids"))
      else if risk = .high && !(pyTruthy (dictGet ckvs (toL "allow_high_risk"))) then
        .error (.valueError (toL "High-risk tool requires confirmation.allow_high_risk=true"))
      else
        .ok ()
    | _ => .error (.valueError (toL "Confirmation payload is required for medium/high-risk tools"))

/-- `ExecutionService.execute`, from the point where approval and draft are
loaded: re-hash the draft content against the approval, compare the current
tool-plan hash, check plan binding, enforce the risk policy, and only then
create the Execution row.  The tool's schema validation, the run itself and
the audit timing fields are outside the model; an error means no Execution
row is created. -/
def execute (sha256_text : List Char → List Char) (approval : ApprovalRec)
    (draft : DraftRec) (tool_name : List Char) (tool_input : Json)
    (confirmation : Option Json) (risk : RiskLevel) :
    Except PyErr ExecutionRec :=
  if sha256_text draft.content ≠ approval.draftHash then
    .error (.valueError (toL "Draft content changed since approval"))
  else if draft.toolPlan.map (fun tp => tp.contentHash) ≠ approval.toolplanHash then
    .error (.valueError (toL "Tool plan changed since approval"))
  else if ¬ (_is_tool_input_approved draft.toolPlan tool_name tool_input = true) then
    .error (.valueError (toL "Tool input not approved by locked tool plan"))
  else
    match _enforce_tool_policy risk tool_input confirmation with
    | .error e => .error e
    | .ok () => .ok { tool_name := tool_name, requestInput := tool_input, confirmation := confirmation }

theorem isEmptyDict_iff {x : Json} : isEmptyDict x = true ↔ x = .obj [] := by
  cases x with
  | obj kvs => cases kvs <;> simp [isEmptyDict]
  | null => simp [isEmptyDict]
  | bool b => simp [isEmptyDict]
  | num n => simp [isEmptyDict]
  | str s => simp [isEmptyDict]
  | arr xs => simp [isEmptyDict]

theorem wf_lookup {kvs : List (List Char × Json)} {k : List Char} {v : Json}
    (h : wfJson (.obj kvs) = true) (hl : lookupKey k kvs = some v) :
    wfJson v = true :=
  wfJsonKVs_elem (wf_obj_parts h).2 _ (lookupKey_mem hl)

theorem wf_arr_mem {xs : List Json} {x : Json}
    (h : wfJson (.arr xs) = true) (hm : x ∈ xs) : wfJson x = true :=
  wfJsonList_elem h x hm

/-- `tool_plan_obj.get("actions")` when it is a list, the shape the
specification's plan-binding clause quantifies over. -/
def planActions (p : Json) : Option (List Json) :=
  match p with
  | .obj kvs =>
    match lookupKey (toL "actions") kvs with
    | some (.arr l) => some l
    | _ => none
  | _ => none

/-- The specification's plan-binding predicate, written from the spec's
words: with no plan only the empty input `{}` is accepted; otherwise the
frozen plan must contain at least one action whose `tool` field equals the
tool name and whose `params` is a dict structurally equal (canonically
equal) to the input. -/
def specPlanAllows : Option ToolPlanRec → List Char → Json → Prop
  | none, _, tool_input => tool_input = .obj []
  | some tp, tool_name, tool_input =>
    ∃ acts akvs pkvs,
      planActions tp.planObj = some acts ∧
      (Json.obj akvs) ∈ acts ∧
      lookupKey (toL "tool") akvs = some (.str tool_name) ∧
      lookupKey (toL "params") akvs = some (.obj pkvs) ∧
      structEq (.obj pkvs) tool_input

theorem approved_action_iff {akvs : List (List Char × Json)}
    {tool_name : List Char} {tool_input : Json}
    (hwa : wfJson (.obj akvs) = true) (hin : wfJson tool_input = true) :
    (actionMatches (.obj akvs) tool_name tool_input = true) ↔
    (lookupKey (toL "tool") akvs = some (.str tool_name) ∧
      ∃ pkvs, lookupKey (toL "params") akvs = some (.obj pkvs) ∧
        structEq (.obj pkvs) tool_input) := by
  rw [show actionMatches (.obj akvs) tool_name tool_input
        = ((match lookupKey (toL "tool") akvs with
            | some (.str t) => t == tool_name
            | _ => false) &&
           (match lookupKey (toL "params") akvs with
            | some (.obj pkvs) =>
              canonical_json (.obj pkvs) == canonical_json tool_input
            | _ => false)) from rfl,
    Bool.and_eq_true]
  constructor
  · rintro ⟨h1, h2⟩
    constructor
    · cases hl : lookupKey (toL "tool") akvs with
      | none =>
        rw [hl] at h1
        exact Bool.noConfusion h1
      | some v =>
        rw [hl] at h1
        cases v with
        | str t =>
          have ht : t = tool_name := by simpa using h1
          rw [ht]
        | null => exact Bool.noConfusion h1
        | bool b => exact Bool.noConfusion h1
        | num n => exact Bool.noConfusion h1
        | arr l => exact Bool.noConfusion h1
        | obj kv2 => exact Bool.noConfusion h1
    · cases hp : lookupKey (toL "params") akvs with
      | none =>
        rw [hp] at h2
        exact Bool.noConfusion h2
      | some v =>
        rw [hp] at h2
        cases v with
        | obj pkvs =>
          refine ⟨pkvs, rfl, ?_⟩
          have hce : canonical_json (.obj pkvs) = canonical_json tool_input := by
            simpa using h2
          exact (canonical_iff_structEq (wf_lookup hwa hp) hin).mp hce
        | null => exact Bool.noConfusion h2
        | bool b => exact Bool.noConfusion h2
        | num n => exact Bool.noConfusion h2
        | str s => exact Bool.noConfusion h2
        | arr l => exact Bool.noConfusion h2
  · rintro ⟨h1, pkvs, h2, h3⟩
    constructor
    · rw [h1]
      simp
    · rw [h2]
      have := (canonical_iff_structEq (wf_lookup hwa h2) hin).mpr h3
      simpa using this

/-- C1: `execute` accepts `tool_input` exactly when the frozen plan has an
action with this tool name whose params canonically equal the input; with
no plan only `{}` passes; a non-matching input surfaces as the
plan-violation error. -/
theorem claim_C1_plan_binding
    (toolPlan : Option ToolPlanRec) (tool_name : List Char) (tool_input : Json)
    (hin : wfJson tool_input = true)
    (hpl : ∀ tp, toolPlan = some tp → wfJson tp.planObj = true) :
    (_is_tool_input_approved toolPlan tool_name tool_input = true ↔
      specPlanAllows toolPlan tool_name tool_input)
    ∧ (∀ (sha : List Char → List Char) (approval : ApprovalRec) (draft : DraftRec)
        (confirmation : Option Json) (risk : RiskLevel),
        draft.toolPlan = toolPlan →
        sha draft.content = approval.draftHash →
        draft.toolPlan.map (fun tp => tp.contentHash) = approval.toolplanHash →
        _is_tool_input_approved toolPlan tool_name tool_input = false →
        execute sha approval draft tool_name tool_input confirmation risk =
          .error (.valueError (toL "Tool input not approved by locked tool plan"))) := by
  constructor
  · cases toolPlan with
    | none =>
      simpa [_is_tool_input_approved, specPlanAllows] using isEmptyDict_iff
    | some tp =>
      obtain ⟨po, ch⟩ := tp
      have hwp : wfJson po = true := hpl ⟨po, ch⟩ rfl
      cases po with
      | obj kvs =>
        show (match lookupKey (toL "actions") kvs with
              | some (.arr actions) =>
                actions.any fun action => actionMatches action tool_name tool_input
              | _ => false) = true ↔ _
        cases hact : lookupKey (toL "actions") kvs with
        | none =>
          constructor
          · intro h
            exact Bool.noConfusion h
          · rintro ⟨acts, akvs, pkvs, hae, -⟩
            simp [planActions, hact] at hae
        | some av =>
          cases av with
          | arr acts =>
            have hwacts : wfJson (.arr acts) = true := wf_lookup hwp hact
            simp only [List.any_eq_true]
            constructor
            · rintro ⟨a, ha, hf⟩
              cases a with
              | obj akvs =>
                obtain ⟨h1, pkvs, h2, h3⟩ :=
                  (approved_action_iff (wf_arr_mem hwacts ha) hin).mp hf
                exact ⟨acts, akvs, pkvs, by simp [planActions, hact], ha, h1, h2, h3⟩
              | null => exact Bool.noConfusion hf
              | bool b => exact Bool.noConfusion hf
              | num n => exact Bool.noConfusion hf
              | str s => exact Bool.noConfusion hf
              | arr l => exact Bool.noConfusion hf
            · rintro ⟨acts', akvs, pkvs, hae, ha, h1, h2, h3⟩
              obtain rfl : acts = acts' := by
                simpa [planActions, hact] using hae
              refine ⟨.obj akvs, ha, ?_⟩
              exact (approved_action_iff (wf_arr_mem hwacts ha) hin).mpr ⟨h1, pkvs, h2, h3⟩
          | null =>
            constructor
            · intro h
              exact Bool.noConfusion h
            · rintro ⟨acts, akvs, pkvs, hae, -⟩
              simp [planActions, hact] at hae
          | bool b =>
            constructor
            · intro h
              exact Bool.noConfusion h
            · rintro ⟨acts, akvs, pkvs, hae, -⟩
              simp [planActions, hact] at hae
          | num n =>
            constructor
            · intro h
              exact Bool.noConfusion h
            · rintro ⟨acts, akvs, pkvs, hae, -⟩
              simp [planActions, hact] at hae
          | str s =>
            constructor
            · intro h
              exact Bool.noConfusion h
            · rintro ⟨acts, akvs, pkvs, hae, -⟩
              simp [planActions, hact] at hae
          | obj kvs2 =>
            constructor
            · intro h
              exact Bool.noConfusion h
            · rintro ⟨acts, akvs, pkvs, hae, -⟩
              simp [planActions, hact] at hae
      | null =>
        constructor
        · intro h
          exact Bool.noConfusion h
        · rintro ⟨acts, akvs, pkvs, hae, -⟩
          simp [planActions] at hae
      | bool b =>
        constructor
        · intro h
          exact Bool.noConfusion h
        · rintro ⟨acts, akvs, pkvs, hae, -⟩
          simp [planActions] at hae
      | num n =>
        constructor
        · intro h
          exact Bool.noConfusion h
        · rintro ⟨acts, akvs, pkvs, hae, -⟩
          simp [planActions] at hae
      | str s =>
        constructor
        · intro h
          exact Bool.noConfusion h
        · rintro ⟨acts, akvs, pkvs, hae, -⟩
          simp [planActions] at hae
      | arr l =>
        constructor
        · intro h
          exact Bool.noConfusion h
        · rintro ⟨acts, akvs, pkvs, hae, -⟩
          simp [planActions] at hae
  · intro sha approval draft confirmation risk hdp h1 h2 hnot
    subst hdp
    rw [execute, if_neg (by rw [h1]; exact fun h => h rfl),
      if_neg (by rw [h2]; exact fun h => h rfl),
      if_pos (by rw [hnot]; exact Bool.false_ne_true)]

theorem enforce_obj_eq (risk : RiskLevel) (tool_input : Json)
    (ckvs : List (List Char × Json)) (hr : ¬ risk = .low) :
    _enforce_tool_policy risk tool_input (some (.obj ckvs)) =
      (if (!(_extract_action_ids tool_input).isEmpty &&
            !((_extract_action_ids tool_input).all fun aid =>
              (approved_actions_set ckvs).contains aid)) = true
       then .error (.valueError
         (toL "Confirmation payload is missing one or more approved action ids"))
       else if (decide (risk = .high) &&
            !pyTruthy (dictGet ckvs (toL "allow_high_risk"))) = true
       then .error (.valueError
         (toL "High-risk tool requires confirmation.allow_high_risk=true"))
       else .ok ()) := by
  rw [_enforce_tool_policy, if_neg hr]

theorem enforce_error_msgs {risk : RiskLevel} {tool_input : Json}
    {confirmation : Option Json} {e : PyErr}
    (h : _enforce_tool_policy risk tool_input confirmation = .error e) :
    e = .valueError (toL "Confirmation payload is required for medium/high-risk tools") ∨
    e = .valueError (toL "Confirmation payload is missing one or more approved action ids") ∨
    e = .valueError (toL "High-risk tool requires confirmation.allow_high_risk=true") := by
  by_cases hr : risk = .low
  · unfold _enforce_tool_policy at h
    rw [if_pos hr] at h
    cases h
  · rcases confirmation with _ | v
    · unfold _enforce_tool_policy at h
      rw [if_neg hr] at h
      cases h
      exact Or.inl rfl
    · cases v with
      | obj ckvs =>
        rw [enforce_obj_eq risk tool_input ckvs hr] at h
        by_cases hc1 : (!(_extract_action_ids tool_input).isEmpty &&
            !((_extract_action_ids tool_input).all fun aid =>
              (approved_actions_set ckvs).contains aid)) = true
        · rw [if_pos hc1] at h
          cases h
          exact Or.inr (Or.inl rfl)
        · rw [if_neg hc1] at h
          by_cases hc2 : (decide (risk = .high) &&
              !pyTruthy (dictGet ckvs (toL "allow_high_risk"))) = true
          · rw [if_pos hc2] at h
            cases h
            exact Or.inr (Or.inr rfl)
          · rw [if_neg hc2] at h
            cases h
      | null =>
        unfold _enforce_tool_policy at h
        rw [if_neg hr] at h
        cases h
        exact Or.inl rfl
      | bool b =>
        unfold _enforce_tool_policy at h
        rw [if_neg hr] at h
        cases h
        exact Or.inl rfl
      | num n =>
        unfold _enforce_tool_policy at h
        rw [if_neg hr] at h
        cases h
        exact Or.inl rfl
      | str s =>
        unfold _enforce_tool_policy at h
        rw [if_neg hr] at h
        cases h
        exact Or.inl rfl
      | arr xs =>
        unfold _enforce_tool_policy at h
        rw [if_neg hr] at h
        cases h
        exact Or.inl rfl

/-- C2: an approval freezes the SHA-256 of the draft content and the
tool-plan hash; `execute` proceeds past its two binding checks exactly when
both still match, and a mismatch surfaces as the corresponding
plan-violation error, creating no Execution row. -/
theorem claim_C2_approval_binding
    (sha : List Char → List Char) (d : DraftRec) (hd : d.status = .drafting)
    (c' : List Char) (tp' : Option ToolPlanRec) (tool_name : List Char)
    (tool_input : Json) (confirmation : Option Json) (risk : RiskLevel) :
    approve sha d = .ok ({ d with status := .approvedLocked },
      { draftHash := sha d.content,
        toolplanHash := d.toolPlan.map (fun tp => tp.contentHash) })
    ∧ ∀ appr : ApprovalRec,
        appr = { draftHash := sha d.content,
                 toolplanHash := d.toolPlan.map (fun tp => tp.contentHash) } →
        (sha c' ≠ appr.draftHash →
          execute sha appr { d with content := c', toolPlan := tp' }
              tool_name tool_input confirmation risk =
            .error (.valueError (toL "Draft content changed since approval")))
        ∧ (sha c' = appr.draftHash →
            tp'.map (fun tp => tp.contentHash) ≠ appr.toolplanHash →
            execute sha appr { d with content := c', toolPlan := tp' }
                tool_name tool_input confirmation risk =
              .error (.valueError (toL "Tool plan changed since approval")))
        ∧ ((sha c' = appr.draftHash ∧
              tp'.map (fun tp => tp.contentHash) = appr.toolplanHash) ↔
            (execute sha appr { d with content := c', toolPlan := tp' }
                tool_name tool_input confirmation risk ≠
              .error (.valueError (toL "Draft content changed since approval")) ∧
             execute sha appr { d with content := c', toolPlan := tp' }
                tool_name tool_input confirmation risk ≠
              .error (.valueError (toL "Tool plan changed since approval")))) := by
  constructor
  · rw [approve, if_neg (by simp [hd])]
  · intro appr happr
    subst happr
    have hc : ({ d with content := c', toolPlan := tp' } : DraftRec).content = c' := rfl
    have htp : ({ d with content := c', toolPlan := tp' } : DraftRec).toolPlan = tp' := rfl
    refine ⟨?_, ?_, ?_, ?_⟩
    · intro hne
      rw [execute, if_pos (by rw [hc]; exact hne)]
    · intro heq hne
      rw [execute, if_neg (by rw [hc, heq]; exact fun hco => hco rfl),
        if_pos (by rw [htp]; exact hne)]
    · rintro ⟨heq1, heq2⟩
      rw [execute, if_neg (by rw [hc, heq1]; exact fun hco => hco rfl),
        if_neg (by rw [htp, heq2]; exact fun hco => hco rfl)]
      by_cases hap : _is_tool_input_approved tp' tool_name tool_input = true
      · rw [if_neg (by rw [htp]; exact fun hco => hco hap)]
        constructor
        · cases henf : _enforce_tool_policy risk tool_input confirmation with
          | ok u =>
            cases u
            simp [henf]
          | error e =>
            simp only [henf]
            intro hco
            simp only [Except.error.injEq] at hco
            rcases enforce_error_msgs henf with rfl | rfl | rfl <;> revert hco <;> decide
        · cases henf : _enforce_tool_policy risk tool_input confirmation with
          | ok u =>
            cases u
            simp [henf]
          | error e =>
            simp only [henf]
            intro hco
            simp only [Except.error.injEq] at hco
            rcases enforce_error_msgs henf with rfl | rfl | rfl <;> revert hco <;> decide
      · rw [if_pos (by rw [htp]; exact hap)]
        constructor <;> (intro hco; simp only [Except.error.injEq] at hco; revert hco; decide)
    · rintro ⟨hne1, hne2⟩
      by_cases h1 : sha c' = sha d.content
      · refine ⟨h1, ?_⟩
        by_cases h2 : tp'.map (fun tp => tp.contentHash) = d.toolPlan.map (fun tp => tp.contentHash)
        · exact h2
        · exact absurd (by
            rw [execute, if_neg (by rw [hc, h1]; exact fun hco => hco rfl),
              if_pos (by rw [htp]; exact h2)]) hne2
      · exact absurd (by rw [execute, if_pos (by rw [hc]; exact h1)]) hne1

theorem claim_C2_approval_binding_witness :
    ((({ title := [], content := toL "hi", status := .drafting,
          toolPlan := none } : DraftRec).status = DraftStatus.drafting) ∧
     (fun s : List Char => s) (toL "edited") ≠
       (fun s : List Char => s) (toL "hi")) ∧
    (approve (fun s => s)
        { title := [], content := toL "hi", status := .drafting, toolPlan := none } =
      .ok ({ title := [], content := toL "hi", status := .approvedLocked, toolPlan := none },
        { draftHash := toL "hi", toolplanHash := none })) ∧
    execute (fun s => s) { draftHash := toL "hi", toolplanHash := none }
        { title := [], content := toL "edited", status := .drafting, toolPlan := none }
        (toL "open_links") (.obj []) none .low =
      .error (.valueError (toL "Draft content changed since approval")) := by
  have h := claim_C2_approval_binding (fun s => s)
    { title := [], content := toL "hi", status := .drafting, toolPlan := none }
    (by decide) (toL "edited") none (toL "open_links") (.obj []) none .low
  refine ⟨⟨by decide, by decide⟩, h.1, ?_⟩
  exact (h.2 _ rfl).1 (by decide)

/-- C3: a draft that is not DRAFTING rejects every mutation — the update
endpoint, `upsert_tool_plan` and a second `approve` — while a DRAFTING
draft admits all three; the operations return errors without touching the
draft. -/
theorem claim_C3_draft_lifecycle
    (d : DraftRec) (sha : List Char → List Char)
    (title : Option (List Char)) (content : Option (List Char)) (planObj : Json) :
    (d.status ≠ .drafting →
      update_draft title content d =
        .error (.valueError (toL "Draft is locked (approved)")) ∧
      upsert_tool_plan sha d planObj = .error (.valueError (toL "Draft is locked")) ∧
      approve sha d = .error (.valueError (toL "Draft already locked")))
    ∧ (d.status = .drafting →
      (∃ d', update_draft title content d = .ok d') ∧
      (∃ d', upsert_tool_plan sha d planObj = .ok d') ∧
      (∃ r, approve sha d = .ok r))
    ∧ (∀ d' appr, approve sha d = .ok (d', appr) →
      approve sha d' = .error (.valueError (toL "Draft already locked")) ∧
      update_draft title content d' =
        .error (.valueError (toL "Draft is locked (approved)")) ∧
      upsert_tool_plan sha d' planObj = .error (.valueError (toL "Draft is locked"))) := by
  refine ⟨?_, ?_, ?_⟩
  · intro hs
    exact ⟨by rw [update_draft, if_pos hs], by rw [upsert_tool_plan, if_pos hs],
      by rw [approve, if_pos hs]⟩
  · intro hs
    refine ⟨⟨_, by rw [update_draft, if_neg (by simp [hs])]⟩,
      ⟨_, by rw [upsert_tool_plan, if_neg (by simp [hs])]⟩,
      ⟨_, by rw [approve, if_neg (by simp [hs])]⟩⟩
  · intro d' appr happ
    by_cases hs : d.status = .drafting
    · rw [approve, if_neg (by simp [hs])] at happ
      simp only [Except.ok.injEq, Prod.mk.injEq] at happ
      have hd' : d' = { d with status := .approvedLocked } := happ.1.symm
      have hs' : d'.status = .approvedLocked := by rw [hd']
      refine ⟨by rw [approve, if_pos (by simp [hs'])],
        by rw [update_draft, if_pos (by simp [hs'])],
        by rw [upsert_tool_plan, if_pos (by simp [hs'])]⟩
    · rw [approve, if_pos hs] at happ
      cases happ

theorem claim_C3_draft_lifecycle_witness :
    (({ title := [], content := toL "x", status := .approvedLocked,
        toolPlan := none } : DraftRec).status ≠ DraftStatus.drafting) ∧
    update_draft (some (toL "t")) (some (toL "y"))
        { title := [], content := toL "x", status := .approvedLocked, toolPlan := none } =
      .error (.valueError (toL "Draft is locked (approved)")) ∧
    upsert_tool_plan (fun s => s)
        { title := [], content := toL "x", status := .approvedLocked, toolPlan := none }
        (.obj []) =
      .error (.valueError (toL "Draft is locked")) ∧
    approve (fun s => s)
        { title := [], content := toL "x", status := .approvedLocked, toolPlan := none } =
      .error (.valueError (toL "Draft already locked")) := by
  refine ⟨by decide, ?_⟩
  exact (claim_C3_draft_lifecycle
    { title := [], content := toL "x", status := .approvedLocked, toolPlan := none }
    (fun s => s) (some (toL "t")) (some (toL "y")) (.obj [])).1 (by decide)

theorem all_of_isEmpty {ids : List (List Char)} (h : ids.isEmpty = true)
    (f : List Char → Bool) : ids.all f = true := by
  cases ids with
  | nil => rfl
  | cons a t => cases h

/-- C4 counterexample: the HIGH-risk gate passes a confirmation whose
`allow_high_risk` is the number `2`, which is not the boolean `true` — the
code tests Python truthiness, not equality with `true`. -/
theorem claim_C4_counterexample :
    _enforce_tool_policy .high (.obj [])
      (some (.obj [(toL "allow_high_risk", .num 2)])) = .ok ()
    ∧ dictGet [(toL "allow_high_risk", .num 2)] (toL "allow_high_risk") ≠ .bool true := by
  constructor
  · decide
  · decide

/-- C4 (amended): LOW tools never require a confirmation; MEDIUM and HIGH
need a dict confirmation; with one, the gate passes exactly when every
extracted action id is in the approved set and, for HIGH, when
`allow_high_risk` is truthy under Python `bool()` (so non-boolean truthy
values also pass). -/
theorem claim_C4_risk_policy (risk : RiskLevel) (tool_input : Json)
    (confirmation : Option Json) :
    (risk = .low → _enforce_tool_policy risk tool_input confirmation = .ok ())
    ∧ (risk ≠ .low → (∀ kvs, confirmation ≠ some (.obj kvs)) →
        _enforce_tool_policy risk tool_input confirmation =
          .error (.valueError
            (toL "Confirmation payload is required for medium/high-risk tools")))
    ∧ (∀ ckvs, risk ≠ .low → confirmation = some (.obj ckvs) →
        (_enforce_tool_policy risk tool_input confirmation = .ok () ↔
          ((_extract_action_ids tool_input).all
            (fun aid => (approved_actions_set ckvs).contains aid) = true ∧
           (risk = .high →
             pyTruthy (dictGet ckvs (toL "allow_high_risk")) = true)))) := by
  refine ⟨?_, ?_, ?_⟩
  · intro hr
    unfold _enforce_tool_policy
    rw [if_pos hr]
  · intro hr hnd
    rcases confirmation with _ | v
    · unfold _enforce_tool_policy
      rw [if_neg hr]
    · cases v with
      | obj ckvs => exact absurd rfl (hnd ckvs)
      | null =>
        unfold _enforce_tool_policy
        rw [if_neg hr]
      | bool b =>
        unfold _enforce_tool_policy
        rw [if_neg hr]
      | num n =>
        unfold _enforce_tool_policy
        rw [if_neg hr]
      | str s =>
        unfold _enforce_tool_policy
        rw [if_neg hr]
      | arr xs =>
        unfold _enforce_tool_policy
        rw [if_neg hr]
  · intro ckvs hr hc
    subst hc
    rw [enforce_obj_eq risk tool_input ckvs hr]
    by_cases hc1 : (!(_extract_action_ids tool_input).isEmpty &&
        !((_extract_action_ids tool_input).all fun aid =>
          (approved_actions_set ckvs).contains aid)) = true
    · rw [if_pos hc1]
      rw [Bool.and_eq_true, Bool.not_eq_eq_eq_not, Bool.not_eq_eq_eq_not] at hc1
      constructor
      · intro hco
        cases hco
      · rintro ⟨hall, -⟩
        rw [hall] at hc1
        cases hc1.2
    · rw [if_neg hc1]
      have hall : (_extract_action_ids tool_input).all
          (fun aid => (approved_actions_set ckvs).contains aid) = true := by
        cases hi : (_extract_action_ids tool_input).isEmpty with
        | true => exact all_of_isEmpty hi _
        | false =>
          cases ha2 : (_extract_action_ids tool_input).all
              fun aid => (approved_actions_set ckvs).contains aid with
          | true => rfl
          | false => exact absurd (by rw [hi, ha2]; rfl) hc1
      by_cases hc2 : (decide (risk = .high) &&
          !pyTruthy (dictGet ckvs (toL "allow_high_risk"))) = true
      · rw [if_pos hc2]
        rw [Bool.and_eq_true, decide_eq_true_eq] at hc2
        constructor
        · intro hco
          cases hco
        · rintro ⟨-, hh⟩
          have := hh hc2.1
          rw [this] at hc2
          cases hc2.2
      · rw [if_neg hc2]
        refine ⟨fun _ => ⟨hall, ?_⟩, fun _ => rfl⟩
        intro hhigh
        cases ht : pyTruthy (dictGet ckvs (toL "allow_high_risk"))
        · exact absurd (by rw [hhigh, ht]; rfl) hc2
        · rfl

theorem claim_C4_risk_policy_witness :
    (RiskLevel.medium ≠ RiskLevel.low ∧
      (some (Json.obj [(toL "approved_actions", Json.arr [.str (toL "a1")])]) : Option Json) =
        some (.obj [(toL "approved_actions", Json.arr [.str (toL "a1")])])) ∧
    _enforce_tool_policy .medium
      (.obj [(toL "actions", .arr [.obj [(toL "id", .str (toL "a1"))]])])
      (some (.obj [(toL "approved_actions", Json.arr [.str (toL "a1")])])) = .ok () := by
  refine ⟨⟨by decide, rfl⟩, ?_⟩
  exact ((claim_C4_risk_policy .medium
    (.obj [(toL "actions", .arr [.obj [(toL "id", .str (toL "a1"))]])])
    (some (.obj [(toL "approved_actions", Json.arr [.str (toL "a1")])]))).2.2
    _ (by decide) rfl).mpr ⟨by decide, fun h => by cases h⟩

/-- C10 counterexample: for an input with no compliant actions array, the
HIGH gate passes with `allow_high_risk` set to the string `"yes"`, which is
not the boolean `true` — truthiness again, refuting the parenthetical
"requires allow_high_risk true" in its literal reading. -/
theorem claim_C10_counterexample :
    _enforce_tool_policy .high (.obj [(toL "query", .str (toL "x"))])
      (some (.obj [(toL "allow_high_risk", .str (toL "yes"))])) = .ok ()
    ∧ dictGet [(toL "allow_high_risk", .str (toL "yes"))] (toL "allow_high_risk") ≠
        .bool true := by
  constructor
  · decide
  · decide

/-- C10 (amended): when `tool_input` contains no actions array of objects
with non-empty string ids (no extractable action ids), a MEDIUM tool
accepts any dict confirmation, including `{}`, with no `approved_actions`
required; HIGH under the same inputs passes exactly when `allow_high_risk`
is truthy (so with `{}` it fails and with `allow_high_risk := true` it
passes). -/
theorem claim_C10_no_ids_gate (tool_input : Json)
    (h : _extract_action_ids tool_input = []) :
    (∀ ckvs, _enforce_tool_policy .medium tool_input (some (.obj ckvs)) = .ok ())
    ∧ (∀ ckvs, _enforce_tool_policy .high tool_input (some (.obj ckvs)) = .ok () ↔
        pyTruthy (dictGet ckvs (toL "allow_high_risk")) = true)
    ∧ _enforce_tool_policy .high tool_input (some (.obj [])) =
        .error (.valueError (toL "High-risk tool requires confirmation.allow_high_risk=true"))
    ∧ _enforce_tool_policy .high tool_input
        (some (.obj [(toL "allow_high_risk", .bool true)])) = .ok () := by
  have hc1 : ∀ ckvs : List (List Char × Json),
      (!(_extract_action_ids tool_input).isEmpty &&
        !((_extract_action_ids tool_input).all fun aid =>
          (approved_actions_set ckvs).contains aid)) = false := by
    intro ckvs
    rw [h]
    rfl
  refine ⟨?_, ?_, ?_, ?_⟩
  · intro ckvs
    rw [enforce_obj_eq .medium tool_input ckvs (by decide),
      if_neg (by rw [hc1 ckvs]; exact Bool.false_ne_true),
      if_neg (by intro hco; simp at hco)]
  · intro ckvs
    rw [enforce_obj_eq .high tool_input ckvs (by decide),
      if_neg (by rw [hc1 ckvs]; exact Bool.false_ne_true)]
    cases ht : pyTruthy (dictGet ckvs (toL "allow_high_risk"))
    · rw [if_pos (by rfl)]
      constructor
      · intro hco
        cases hco
      · intro hco
        cases hco
    · rw [if_neg (fun hco => Bool.noConfusion hco)]
      simp
  · rw [enforce_obj_eq .high tool_input [] (by decide),
      if_neg (by rw [hc1 []]; exact Bool.false_ne_true),
      if_pos (by decide)]
  · rw [enforce_obj_eq .high tool_input [(toL "allow_high_risk", .bool true)] (by decide),
      if_neg (by rw [hc1 [(toL "allow_high_risk", .bool true)]]; exact Bool.false_ne_true),
      if_neg (by decide)]

theorem claim_C10_no_ids_gate_witness :
    (_extract_action_ids (.obj [(toL "query", .str (toL "x"))]) = []) ∧
    _enforce_tool_policy .medium (.obj [(toL "query", .str (toL "x"))])
      (some (.obj [])) = .ok () := by
  refine ⟨by decide, ?_⟩
  exact (claim_C10_no_ids_gate (.obj [(toL "query", .str (toL "x"))]) (by decide)).1 []

theorem claim_C1_plan_binding_witness :
    (wfJson (.obj [(toL "urls", .arr [.str (toL "https://example.com")])]) = true ∧
      ∀ tp : ToolPlanRec,
        (some (⟨.obj [(toL "actions", .arr [.obj [
        (toL "params", .obj [(toL "urls", .arr [.str (toL "https://example.com")])]),
        (toL "tool", .str (toL "open_links"))]])], []⟩ : ToolPlanRec) : Option ToolPlanRec) = some tp →
        wfJson tp.planObj = true) ∧
    (_is_tool_input_approved
        (some (⟨.obj [(toL "actions", .arr [.obj [
        (toL "params", .obj [(toL "urls", .arr [.str (toL "https://example.com")])]),
        (toL "tool", .str (toL "open_links"))]])], []⟩ : ToolPlanRec))
        (toL "open_links")
        (.obj [(toL "urls", .arr [.str (toL "https://example.com")])]) = true ↔
      specPlanAllows
        (some (⟨.obj [(toL "actions", .arr [.obj [
        (toL "params", .obj [(toL "urls", .arr [.str (toL "https://example.com")])]),
        (toL "tool", .str (toL "open_links"))]])], []⟩ : ToolPlanRec))
        (toL "open_links")
        (.obj [(toL "urls", .arr [.str (toL "https://example.com")])])) := by
  refine ⟨⟨by decide, by intro tp h; cases h; decide⟩, ?_⟩
  exact (claim_C1_plan_binding
    (some (⟨.obj [(toL "actions", .arr [.obj [
        (toL "params", .obj [(toL "urls", .arr [.str (toL "https://example.com")])]),
        (toL "tool", .str (toL "open_links"))]])], []⟩ : ToolPlanRec))
    (toL "open_links")
    (.obj [(toL "urls", .arr [.str (toL "https://example.com")])])
    (by decide) (by intro tp h; cases h; decide)).1

/-- C5: `canonical_json` agrees on two well-formed JSON trees exactly when
they are structurally equal; equal trees therefore serialise to identical
bytes regardless of object-key insertion order, and hence to equal SHA-256
digests. -/
theorem claim_C5_canonicalisation (x y : Json)
    (hx : wfJson x = true) (hy : wfJson y = true) :
    (canonical_json x = canonical_json y ↔ structEq x y) ∧
    (∀ sha256_text : List Char → List Char, structEq x y →
      sha256_text (canonical_json x) = sha256_text (canonical_json y)) := by
  refine ⟨canonical_iff_structEq hx hy, ?_⟩
  intro sha h
  rw [(canonical_iff_structEq hx hy).mpr h]

theorem claim_C5_canonicalisation_witness :
    (wfJson (.obj [(toL "b", .num 1), (toL "a", .num 2)]) = true ∧
     wfJson (.obj [(toL "a", .num 2), (toL "b", .num 1)]) = true) ∧
    ((canonical_json (.obj [(toL "b", .num 1), (toL "a", .num 2)]) =
        canonical_json (.obj [(toL "a", .num 2), (toL "b", .num 1)]) ↔
      structEq (.obj [(toL "b", .num 1), (toL "a", .num 2)])
        (.obj [(toL "a", .num 2), (toL "b", .num 1)])) ∧
     (∀ sha256_text : List Char → List Char,
        structEq (.obj [(toL "b", .num 1), (toL "a", .num 2)])
          (.obj [(toL "a", .num 2), (toL "b", .num 1)]) →
        sha256_text (canonical_json (.obj [(toL "b", .num 1), (toL "a", .num 2)])) =
          sha256_text (canonical_json (.obj [(toL "a", .num 2), (toL "b", .num 1)])))) :=
  ⟨⟨by decide, by decide⟩,
    claim_C5_canonicalisation _ _ (by decide) (by decide)⟩

/-- A canonical resolved filesystem path, as the list of its components
(`_norm_path` output; e.g. `["C:", "Users", "a", "notes.txt"]`). -/
def CPath : Type := List (List Char)

instance : DecidableEq CPath := inferInstanceAs (DecidableEq (List (List Char)))

/-- `RagService._is_under_root` on resolved paths: equal to, or strictly
below, the root — i.e. the root's components are a prefix of the path's. -/
def _is_under_root (path root : CPath) : Bool :=
  List.isPrefixOf root path

/-- Lowercase a string as Python `str.lower()` does on ASCII. -/
def toLowerL (s : List Char) : List Char := s.map Char.toLower

/-- Python `needle in hay` on strings. -/
def containsSub (hay needle : List Char) : Bool :=
  if needle.isEmpty then true
  else (List.range (hay.length + 1)).any fun i => needle.isPrefixOf (hay.drop i)

/-- A word character of the `[a-zA-Z0-9_]` class. -/
def isWordCh (c : Char) : Bool :=
  (97 ≤ c.toNat && c.toNat ≤ 122) || (65 ≤ c.toNat && c.toNat ≤ 90) ||
  (48 ≤ c.toNat && c.toNat ≤ 57) || c.toNat = 95

/-- Maximal runs of word characters (the matches of `[a-zA-Z0-9_]+`). -/
def splitRunsAux : List Char → List Char → List (List Char)
  | [], acc => if acc.isEmpty then [] else [acc.reverse]
  | c :: t, acc =>
    if isWordCh c then splitRunsAux t (c :: acc)
    else if acc.isEmpty then splitRunsAux t []
    else acc.reverse :: splitRunsAux t []

/-- `rag.service._tokenize`: `re.findall(r"[a-zA-Z0-9_]{2,}", text.lower())`. -/
def _tokenize (text : List Char) : List (List Char) :=
  (splitRunsAux (toLowerL text) []).filter fun r => 2 ≤ r.length

/-- `rag.service._compact`: `re.sub(r"[^a-z0-9]+", "", s.lower())`. -/
def _compact (s : List Char) : List Char :=
  (toLowerL s).filter fun c =>
    (97 ≤ c.toNat && c.toNat ≤ 122) || (48 ≤ c.toNat && c.toNat ≤ 57)

/-- The query stopword list of `rag/service.py`. -/
def _QUERY_STOPWORDS : List (List Char) :=
  [toL "find", toL "search", toL "locate", toL "where", toL "is", toL "are",
   toL "the", toL "a", toL "an", toL "of", toL "for", toL "in", toL "on",
   toL "to", toL "my", toL "local", toL "pc", toL "computer", toL "disk",
   toL "drive", toL "file", toL "files", toL "folder", toL "folders",
   toL "directory", toL "document", toL "documents"]

/-- Python `str.isdigit` restricted to ASCII digits. -/
def allDigits (s : List Char) : Bool :=
  !s.isEmpty && s.all fun c => 48 ≤ c.toNat && c.toNat ≤ 57

/-- `_extract_drive_hints`: occurrences of `\b([a-zA-Z]):\b` in the query,
uppercased into `X:\` hints, first-seen order, deduplicated.  The trailing
`\b` after the colon requires a word character to follow it. -/
def _extract_drive_hints (query : List Char) : List (List Char) :=
  let isLetter : Char → Bool := fun c =>
    (97 ≤ c.toNat && c.toNat ≤ 122) || (65 ≤ c.toNat && c.toNat ≤ 90)
  let n := query.length
  let hits := (List.range n).filterMap fun i =>
    match query.drop i with
    | c :: ':' :: d :: _ =>
      if isLetter c && isWordCh d && (i = 0 || !(isWordCh (query.getD (i - 1) ' ')))
      then some [c.toUpper, ':', '\\'] else none
    | _ => none
  hits.dedup

/-- The media-extension set of `rag/service.py`. -/
def media_ext : List (List Char) :=
  [toL ".jpg", toL ".jpeg", toL ".png", toL ".gif", toL ".bmp", toL ".webp",
   toL ".tif", toL ".tiff", toL ".heic", toL ".mp4", toL ".mov", toL ".avi",
   toL ".mkv", toL ".webm"]

/-- Render a canonical path back to its string (Windows-style separators,
as the reference deployment's resolved paths carry). -/
def pathStr : CPath → List Char
  | [] => []
  | [c] => c
  | c :: d :: t => c ++ '\\' :: pathStr (d :: t)

/-- The last path component (`Path(path).name`). -/
def lastComponent (p : CPath) : List Char := (p.getLast?).getD []

/-- `Path(path).suffix`: the final `.ext` of the name, empty for names
without an interior dot. -/
def extOf (name : List Char) : List Char :=
  let rev := name.reverse
  let after := rev.takeWhile fun c => c ≠ '.'
  if after.length = rev.length then []
  else if after.isEmpty then []
  else if (rev.drop (after.length + 1)).isEmpty then []
  else '.' :: after.reverse

/-- A search result (`RagHit` of `rag/service.py`); scores are exact
rationals standing for the float arithmetic of `find_files`, whose
constants (2.0, 1.5, 1.2, 0.2, coverage) are all exactly representable. -/
structure RagHit where
  path : CPath
  score : ℚ
  snippet : List Char

/-- One line of `index.jsonl` after the `isinstance` shape checks (rows
failing those checks are skipped by the code and so simply absent here);
the float embedding is not carried — `search` consumes it only through the
dot-product score, which the model takes as a function parameter. -/
structure IndexRow where
  path : CPath
  snippet : List Char

/-- Stable descending insertion by score (`list.sort(reverse=True)`). -/
def insertHitDesc (h : RagHit) : List RagHit → List RagHit
  | [] => [h]
  | x :: t => if h.score ≤ x.score then x :: insertHitDesc h t else h :: x :: t

def sortHitsDesc : List RagHit → List RagHit
  | [] => []
  | h :: t => insertHitDesc h (sortHitsDesc t)

/-- Validation of an explicit `roots` argument against the approved set,
shared by `search` and `find_files`: a Python-falsy argument (absent or the
empty list) falls back to all approved roots; otherwise every requested
root must lie under some approved root. -/
def filterRoots (perms : List CPath) (rootsArg : Option (List CPath)) :
    Except PyErr (List CPath) :=
  match rootsArg with
  | some roots =>
    if roots.isEmpty then .ok perms
    else if roots.all (fun r => perms.any fun a => _is_under_root r a) then .ok roots
    else .error (.valueError (toL "Root is not approved"))
  | none => .ok perms

/-- `RagService.search`: empty query or no roots give no hits; otherwise
score every indexed row whose path lies under the requested roots, drop
non-positive scores, sort descending and truncate to `top_k ∈ [1, 12]`.
The cosine score of the float embeddings enters as the parameter
`score`. -/
def ragSearch (score : IndexRow → ℚ) (perms : List CPath)
    (rootsArg : Option (List CPath)) (query : List Char) (top_k : Nat)
    (rows : List IndexRow) : Except PyErr (List RagHit) :=
  if (stripChars query).isEmpty then .ok []
  else
    match filterRoots perms rootsArg with
    | .error e => .error e
    | .ok filtered_roots =>
      if filtered_roots.isEmpty then .ok []
      else if rows.isEmpty then .ok []
      else
        let scored := rows.filterMap fun row =>
          if filtered_roots.any (fun r => _is_under_root row.path r) then
            if score row ≤ 0 then none
            else some { path := row.path, score := score row, snippet := row.snippet }
          else none
        .ok ((sortHitsDesc scored).take (max 1 (min top_k 12)))

/-- The per-file scoring of `find_files`; returns the hit and whether it
belongs to the strong (`coverage ≥ 0.34`) pool. -/
def fileHit (q : List Char) (q_tokens : List (List Char)) (q_compact : List Char)
    (wants_images wants_docs : Bool) (path : CPath) : Option (RagHit × Bool) :=
  let p := toLowerL (pathStr path)
  let name := toLowerL (lastComponent path)
  let ext := toLowerL (extOf (lastComponent path))
  let path_tokens := (_tokenize p).dedup
  let overlap := (q_tokens.filter fun t => path_tokens.contains t).length
  let compact_path := _compact p
  let compact_overlap :=
    (q_tokens.filter fun tok =>
      !(_compact tok).isEmpty && containsSub compact_path (_compact tok)).length
  let overlap_total := overlap + compact_overlap
  if overlap_total = 0 && !q_compact.isEmpty && !(containsSub compact_path q_compact) then
    none
  else
    let coverage : ℚ := (overlap_total : ℚ) / (max 1 q_tokens.length : ℚ)
    let score : ℚ := (overlap_total : ℚ)
      + (if wants_images && (media_ext.contains ext ||
          [toL "\\pictures\\", toL "\\photos\\", toL "\\dcim\\"].any fun seg =>
            containsSub p seg) then 2 else 0)
      + (if wants_docs && [toL ".pdf", toL ".doc", toL ".docx", toL ".txt",
          toL ".md"].contains ext then 3/2 else 0)
      + (if containsSub q name || q_tokens.any (fun tok =>
          !tok.isEmpty && containsSub name tok) then 1 else 0)
      + (if !q_compact.isEmpty && containsSub compact_path q_compact then 6/5 else 0)
      + coverage
      + (if (pathStr path).length < 140 then 1/5 else 0)
    some ({ path := path, score := score,
            snippet := toL "Matched path: " ++ pathStr path }, 34/100 ≤ coverage)

/-- `RagService.find_files`: filename search over a filesystem walk.
`walk r` stands for the paths `os.walk(r)` yields beneath the root `r`
(after directory pruning).  Structure as in the source: root validation,
drive-hint restriction, query tokenisation with stopwords, per-path
scoring, strong pool first. -/
def find_files (walk : CPath → List CPath) (perms : List CPath)
    (rootsArg : Option (List CPath)) (query : List Char) (top_k : Nat)
    (max_files_scan : Nat) : Except PyErr (List RagHit) :=
  let q := toLowerL (stripChars query)
  if q.isEmpty then .ok []
  else
    match filterRoots perms rootsArg with
    | .error e => .error e
    | .ok filtered_roots =>
      if filtered_roots.isEmpty then .ok []
      else
        let drive_hints := _extract_drive_hints query
        let roots2 :=
          if drive_hints.isEmpty then filtered_roots
          else filtered_roots.filter fun r =>
            drive_hints.any fun d =>
              match r with
              | [] => false
              | c :: _ => toLowerL d == toLowerL c ++ ['\\']
        if !drive_hints.isEmpty && roots2.isEmpty then .ok []
        else
          let q_tokens := ((_tokenize q).filter fun t =>
            3 ≤ t.length && !(_QUERY_STOPWORDS.contains t) && !(allDigits t)).dedup
          if q_tokens.isEmpty then .ok []
          else
            let q_compact := _compact q
            let wants_images := [toL "photo", toL "photos", toL "picture",
              toL "pictures", toL "image", toL "images"].any fun w => containsSub q w
            let wants_docs := [toL "document", toL "documents", toL "pdf",
              toL "doc", toL "docx", toL "txt"].any fun w => containsSub q w
            let files := (roots2.flatMap walk).take max_files_scan
            let hits := files.filterMap
              (fileHit q q_tokens q_compact wants_images wants_docs)
            let scored := (hits.filter fun h => h.2).map fun h => h.1
            let relaxed := (hits.filter fun h => !h.2).map fun h => h.1
            if !scored.isEmpty then
              .ok ((sortHitsDesc scored).take (max 1 (min top_k 20)))
            else
              .ok ((sortHitsDesc relaxed).take (max 1 (min top_k 20)))

/-- `RagService.rebuild_index`, up to the choice of roots: an explicitly
requested root must be a member of the approved set, and with no roots at
all the call fails; the walk and the index/meta writes that follow are
filesystem effects outside the model.  Returns the roots that would be
indexed. -/
def rebuild_index (perms : List CPath) (rootsArg : Option (List CPath)) :
    Except PyErr (List CPath) :=
  match rootsArg with
  | some roots =>
    if roots.isEmpty then
      if perms.isEmpty then
        .error (.valueError (toL "No approved roots. Grant folder permission first."))
      else .ok perms
    else if roots.all (fun r => perms.contains r) then .ok roots
    else .error (.valueError (toL "Root is not approved"))
  | none =>
    if perms.isEmpty then
      .error (.valueError (toL "No approved roots. Grant folder permission first."))
    else .ok perms

theorem mem_insertHitDesc {x h : RagHit} {l : List RagHit}
    (hm : x ∈ insertHitDesc h l) : x = h ∨ x ∈ l := by
  induction l with
  | nil => simpa [insertHitDesc] using hm
  | cons y t ih =>
    by_cases hc : h.score ≤ y.score
    · simp only [insertHitDesc, if_pos hc, List.mem_cons] at hm
      rcases hm with rfl | hm
      · exact Or.inr (by simp)
      · rcases ih hm with h1 | h1
        · exact Or.inl h1
        · exact Or.inr (by simp [h1])
    · simp only [insertHitDesc, if_neg hc, List.mem_cons] at hm
      rcases hm with rfl | hm
      · exact Or.inl rfl
      · exact Or.inr (List.mem_cons.mpr hm)

theorem mem_sortHitsDesc {x : RagHit} {l : List RagHit}
    (hm : x ∈ sortHitsDesc l) : x ∈ l := by
  induction l with
  | nil => simp [sortHitsDesc] at hm
  | cons h t ih =>
    rcases mem_insertHitDesc hm with rfl | h1
    · simp
    · exact List.mem_cons_of_mem _ (ih h1)

theorem under_root_trans {p r a : CPath} (h1 : _is_under_root p r = true)
    (h2 : _is_under_root r a = true) : _is_under_root p a = true := by
  rw [_is_under_root, List.isPrefixOf_iff_prefix] at h1 h2 ⊢
  exact h2.trans h1

theorem filterRoots_sound {perms : List CPath} {rootsArg : Option (List CPath)}
    {fr : List CPath} (hf : filterRoots perms rootsArg = .ok fr) :
    ∀ r ∈ fr, ∀ p : CPath, _is_under_root p r = true →
      ∃ a ∈ perms, _is_under_root p a = true := by
  intro r hr p hp
  rcases rootsArg with _ | roots
  · simp only [filterRoots, Except.ok.injEq] at hf
    subst hf
    exact ⟨r, hr, hp⟩
  · by_cases he : roots.isEmpty
    · simp only [filterRoots, if_pos he, Except.ok.injEq] at hf
      subst hf
      exact ⟨r, hr, hp⟩
    · by_cases ha : roots.all (fun r => perms.any fun a => _is_under_root r a) = true
      · simp only [filterRoots, if_neg he, if_pos ha, Except.ok.injEq] at hf
        subst hf
        have := List.all_eq_true.mp ha r hr
        obtain ⟨a, hamem, hra⟩ := List.any_eq_true.mp this
        exact ⟨a, hamem, under_root_trans hp hra⟩
      · rw [filterRoots] at hf
        rw [if_neg he, if_neg ha] at hf
        cases hf

theorem fileHit_path {q qc : List Char} {qt : List (List Char)} {wi wd : Bool}
    {path : CPath} {hb : RagHit × Bool}
    (h : fileHit q qt qc wi wd path = some hb) : hb.1.path = path := by
  simp only [fileHit] at h
  split at h
  · cases h
  · cases h
    rfl

/-- C6: every hit `search` or `find_files` returns lies under some approved
root (for `find_files`, given that `os.walk r` only yields paths under
`r`); with no approved roots both return the empty list; and
`rebuild_index` rejects any explicitly requested root outside the approved
set. -/
theorem claim_C6_permission_containment :
    (∀ (score : IndexRow → ℚ) (perms : List CPath) (rootsArg : Option (List CPath))
        (query : List Char) (top_k : Nat) (rows : List IndexRow) (hits : List RagHit),
      ragSearch score perms rootsArg query top_k rows = .ok hits →
      ∀ h ∈ hits, ∃ root ∈ perms, _is_under_root h.path root = true)
    ∧ (∀ (walk : CPath → List CPath) (perms : List CPath)
        (rootsArg : Option (List CPath)) (query : List Char)
        (top_k max_files_scan : Nat) (hits : List RagHit),
      (∀ r p, p ∈ walk r → _is_under_root p r = true) →
      find_files walk perms rootsArg query top_k max_files_scan = .ok hits →
      ∀ h ∈ hits, ∃ root ∈ perms, _is_under_root h.path root = true)
    ∧ (∀ (score : IndexRow → ℚ) (query : List Char) (top_k : Nat)
        (rows : List IndexRow) (walk : CPath → List CPath) (max_files_scan : Nat),
      ragSearch score [] none query top_k rows = .ok []
      ∧ find_files walk [] none query top_k max_files_scan = .ok [])
    ∧ (∀ (perms roots : List CPath) (r : CPath),
      r ∈ roots → r ∉ perms →
      rebuild_index perms (some roots) =
        .error (.valueError (toL "Root is not approved"))) := by
  refine ⟨?_, ?_, ?_, ?_⟩
  · intro score perms rootsArg query top_k rows hits hok h hmem
    simp only [ragSearch] at hok
    split at hok
    · cases hok
      cases hmem
    · split at hok
      · cases hok
      · rename_i fr heq
        split at hok
        · cases hok
          cases hmem
        · split at hok
          · cases hok
            cases hmem
          · cases hok
            have h1 := mem_sortHitsDesc (List.mem_of_mem_take hmem)
            obtain ⟨row, hrow, hf⟩ := List.mem_filterMap.mp h1
            by_cases hu : fr.any (fun r => _is_under_root row.path r) = true
            · rw [if_pos hu] at hf
              by_cases hs : score row ≤ 0
              · rw [if_pos hs] at hf
                cases hf
              · rw [if_neg hs] at hf
                obtain ⟨r, hrmem, hur⟩ := List.any_eq_true.mp hu
                have hpath : h.path = row.path := by cases hf; rfl
                rw [hpath]
                exact filterRoots_sound heq r hrmem row.path hur
            · rw [if_neg hu] at hf
              cases hf
  · intro walk perms rootsArg query top_k max_files_scan hits hwalk hok h hmem
    simp only [find_files] at hok
    split at hok
    · cases hok
      cases hmem
    · split at hok
      · cases hok
      · rename_i fr heq
        split at hok
        · cases hok
          cases hmem
        · repeat' split at hok
          all_goals
            first
            | (cases hok
               cases hmem)
            | (cases hok
               have h1 := mem_sortHitsDesc (List.mem_of_mem_take hmem)
               obtain ⟨hb, hbm, hfst⟩ := List.mem_map.mp h1
               have hbm2 := List.mem_of_mem_filter hbm
               obtain ⟨pa, hpa, hfh⟩ := List.mem_filterMap.mp hbm2
               have hpath := fileHit_path hfh
               obtain ⟨r, hrmem, hpw⟩ :=
                 List.mem_flatMap.mp (List.mem_of_mem_take hpa)
               have hrfr : r ∈ fr := by
                 first
                 | exact hrmem
                 | exact List.mem_of_mem_filter hrmem
               have hhp : h.path = pa := by rw [← hfst, hpath]
               rw [hhp]
               exact filterRoots_sound heq r hrfr pa (hwalk r pa hpw))
  · intro score query top_k rows walk max_files_scan
    constructor
    · simp only [ragSearch]
      split
      · rfl
      · rfl
    · simp only [find_files]
      split
      · rfl
      · rfl
  · intro perms roots r hr hnp
    simp only [rebuild_index]
    rw [if_neg (by
        intro he
        rw [List.isEmpty_iff] at he
        rw [he] at hr
        cases hr),
      if_neg (by
        intro hall
        have := List.all_eq_true.mp hall r hr
        exact hnp (by simpa using this))]

theorem claim_C6_permission_containment_witness :
    (∀ h ∈ [({ path := [toL "c", toL "f"], score := 1, snippet := [] } : RagHit)],
       ∃ root ∈ [[toL "c"]], _is_under_root h.path root = true)
    ∧ rebuild_index [[toL "c"]] (some [[toL "d"]]) =
        .error (.valueError (toL "Root is not approved")) :=
  ⟨claim_C6_permission_containment.1 (fun _ => 1) [[toL "c"]] none (toL "q") 1
      [⟨[toL "c", toL "f"], []⟩] _ rfl,
   claim_C6_permission_containment.2.2.2 [[toL "c"]] [[toL "d"]] [toL "d"]
      (by decide) (by decide)⟩

/-- Increment position `i` of a vector of bin counts (`vec[idx] += 1.0`). -/
def bumpAt : List Nat → Nat → List Nat
  | [], _ => []
  | x :: t, 0 => (x + 1) :: t
  | x :: t, i + 1 => x :: bumpAt t i

/-- `RagService._embed` up to the final `_normalize` (which rescales by the
positive factor `1/‖vec‖` whenever the vector is nonzero): the vector of
bin counts.  The parameter `h` stands for Python's built-in `hash` on
`str`, which is salted per process (`PYTHONHASHSEED`);
`hash(tok) % self.embedding_dim` becomes `(h tok).emod dim` (Python `%`
with a positive divisor is the Euclidean remainder). -/
def embedBins (h : List Char → Int) (dim : Nat) (text : List Char) : List Nat :=
  (_tokenize text).foldl
    (fun vec tok => bumpAt vec ((h tok).emod (dim : Int)).toNat)
    (List.replicate dim 0)

set_option maxRecDepth 10000 in
/-- C7: the embedding is NOT deterministic across processes.  The bin index
of a token is `hash(tok) % embedding_dim` where `hash` is Python's salted
string hash, so two processes whose hash functions differ on a token (as
runs with different `PYTHONHASHSEED` salts do) bin the same text into
different coordinates; the difference survives any positive rescale, in
particular the one `_normalize` applies. -/
theorem claim_C7_embedding_process_dependent :
    embedBins (fun _ => 0) 384 (toL "report")
      ≠ embedBins (fun _ => 1) 384 (toL "report")
    ∧ (∀ c d : ℚ, 0 < c → 0 < d →
        (embedBins (fun _ => 0) 384 (toL "report")).map (fun n : Nat => c * (n : ℚ))
          ≠ (embedBins (fun _ => 1) 384 (toL "report")).map
              (fun n : Nat => d * (n : ℚ))) := by
  constructor
  · decide
  · intro c d hc hd heq
    have h1 : embedBins (fun _ => 0) 384 (toL "report")
        = 1 :: List.replicate 383 0 := by decide
    have h2 : embedBins (fun _ => 1) 384 (toL "report")
        = 0 :: 1 :: List.replicate 382 0 := by decide
    rw [h1, h2] at heq
    simp only [List.map_cons, List.cons.injEq] at heq
    have hcd : c * ((1 : Nat) : ℚ) = d * ((0 : Nat) : ℚ) := heq.1
    norm_num at hcd
    exact absurd hcd (ne_of_gt hc)

theorem claim_C7_embedding_process_dependent_witness :
    (0 : ℚ) < 1
    ∧ (embedBins (fun _ => 0) 384 (toL "report")).map (fun n : Nat => (1 : ℚ) * (n : ℚ))
      ≠ (embedBins (fun _ => 1) 384 (toL "report")).map
          (fun n : Nat => (1 : ℚ) * (n : ℚ)) :=
  ⟨by norm_num,
   claim_C7_embedding_process_dependent.2 1 1 (by norm_num) (by norm_num)⟩

/-- `llm/schemas.DraftOut` as the loop of `generate_draft` manipulates it. -/
structure DraftOut where
  title : List Char
  content : List Char
deriving DecidableEq

/-- `llm/schemas.DraftResponse`; `tool_plan` carries the validated plan
object when present. -/
structure DraftResponse where
  assistant_message : List Char
  draft : Option DraftOut
  tool_plan : Option Json
deriving DecidableEq

/-- Python `str.splitlines()` restricted to `\n` separators (the only line
break the drafts in play contain): split on newlines, with no trailing
empty line when the string ends in a newline, and `[]` on the empty
string. -/
def splitOnNLAux : List Char → List Char → List (List Char)
  | [], acc => [acc.reverse]
  | c :: t, acc =>
    if c = '\n' then acc.reverse :: splitOnNLAux t []
    else splitOnNLAux t (c :: acc)

def splitlinesL (s : List Char) : List (List Char) :=
  if s.isEmpty then []
  else
    let parts := splitOnNLAux s []
    if s.getLast? = some '\n' then parts.dropLast else parts

/-- The match of `_LEADING_TITLE_RE = ^\s*(subject|title)\s*[:\-]\s*(.+?)\s*$`
(IGNORECASE) against one line, returning `m.group(2).strip()`.  After the
separator, the lazy `(.+?)` bracketed by greedy `\s*` and `\s*$` matches
iff at least one character remains, and the stripped capture is then
exactly the stripped remainder of the line. -/
def matchLeadingTitle (line : List Char) : Option (List Char) :=
  let rest := line.dropWhile isPySpace
  let low := toLowerL rest
  let afterKey : Option (List Char) :=
    if (toL "subject").isPrefixOf low then some (rest.drop 7)
    else if (toL "title").isPrefixOf low then some (rest.drop 5)
    else none
  match afterKey with
  | none => none
  | some r1 =>
    match r1.dropWhile isPySpace with
    | [] => none
    | c :: r3 =>
      if c = ':' || c = '-' then
        match r3 with
        | [] => none
        | _ => some (stripChars r3)
      else none

/-- `ollama._normalize_title_content`: promote a leading `Subject:`/`Title:`
line of the content into the title and, when the (possibly just promoted)
title equals the extracted text case-insensitively, delete that line from
the content and strip the rest. -/
def _normalize_title_content (d : DraftOut) : DraftOut :=
  let title0 := stripChars d.title
  let content := d.content
  let lines := splitlinesL content
  if lines.isEmpty then d
  else
    match lines.findIdx? (fun l => !(stripChars l).isEmpty) with
    | none => d
    | some first_idx =>
      let first_line := lines.getD first_idx []
      match matchLeadingTitle first_line with
      | none => d
      | some extracted =>
        if extracted.isEmpty then d
        else
          let title := if title0.isEmpty then extracted else title0
          if toLowerL title = toLowerL extracted then
            let remainder := (lines.take first_idx ++
              lines.drop (first_idx + 1)).dropWhile fun l =>
                (stripChars l).isEmpty
            { title := title,
              content := stripChars (List.intercalate ['\n'] remainder) }
          else
            { title := title, content := content }

/-- Python `str.find`: lowest index where `needle` occurs in `hay`. -/
def findSub (hay needle : List Char) : Option Nat :=
  (List.range (hay.length + 1)).find? fun i => needle.isPrefixOf (hay.drop i)

/-- `ollama._recover_content_from_assistant_message`: strip, then cut away
everything up to and including the first marker found (markers tried in
order), stripping the remainder. -/
def _recover_content_from_assistant_message (am : List Char) : List Char :=
  let text := stripChars am
  if text.isEmpty then []
  else
    let low := toLowerL text
    match findSub low (toL "here it is:") with
    | some i => stripChars (text.drop (i + 11))
    | none =>
      match findSub low (toL "draft:") with
      | some i => stripChars (text.drop (i + 6))
      | none =>
        match findSub low (toL "linkedin post draft:") with
        | some i => stripChars (text.drop (i + 20))
        | none => text

/-- `ollama._synthesize_fallback_draft`. -/
def _synthesize_fallback_draft (assistant_message : List Char) : DraftOut :=
  let body := toL "Summary:\n- [Main point]\n- [Next step]\n"
  { title := toL "Conversation notes",
    content :=
      if !assistant_message.isEmpty && !(stripChars assistant_message).isEmpty then
        toL "Assistant response:\n" ++ stripChars assistant_message ++
          toL "\n\n---\n\n" ++ body
      else body }

/-- The repair loop of `OllamaProvider.generate_draft`.  `oracle k` is the
result of `_parse_draft_response` on the backend output of attempt `k`
(`none` when parsing failed); `remaining` counts the attempts left of
`range(1, max_repairs + 2)`; the second component counts backend calls.
Each iteration recovers empty draft content from the assistant message,
then on non-empty content normalises the draft, backfills an empty
assistant message from the first 300 characters of the (normalised)
content, and returns; exhausting the loop returns the synthesised
fallback. -/
def gdLoop (oracle : Nat → Option DraftResponse) :
    Nat → Nat → Option DraftResponse → Nat → DraftResponse × Nat
  | _, 0, lastParsed, calls =>
    let assistant_msg := match lastParsed with
      | some p => p.assistant_message
      | none => []
    let am := stripChars assistant_msg
    ({ assistant_message := if am.isEmpty then toL "I can help with that." else am,
       draft := some (_synthesize_fallback_draft assistant_msg),
       tool_plan := none }, calls)
  | attempt, rem + 1, _, calls =>
    let parsed := match oracle attempt with
      | some p =>
        match p.draft with
        | some d =>
          if (stripChars d.content).isEmpty then
            some { p with draft := some { d with content :=
              _recover_content_from_assistant_message p.assistant_message } }
          else some p
        | none => some p
      | none => none
    match parsed with
    | some p =>
      match p.draft with
      | some d =>
        if !(stripChars d.content).isEmpty then
          let d2 := _normalize_title_content d
          let am := if (stripChars p.assistant_message).isEmpty then
              stripChars (d2.content.take 300)
            else p.assistant_message
          ({ assistant_message := am, draft := some d2,
             tool_plan := p.tool_plan }, calls + 1)
        else gdLoop oracle (attempt + 1) rem parsed (calls + 1)
      | none => gdLoop oracle (attempt + 1) rem parsed (calls + 1)
    | none => gdLoop oracle (attempt + 1) rem parsed (calls + 1)

/-- `OllamaProvider.generate_draft`: the loop runs attempts
`1 .. max_repairs + 1`. -/
def generate_draft (oracle : Nat → Option DraftResponse) (max_repairs : Nat) :
    DraftResponse × Nat :=
  gdLoop oracle 1 (max_repairs + 1) none 0

theorem gdLoop_calls (oracle : Nat → Option DraftResponse) :
    ∀ (rem attempt : Nat) (lp : Option DraftResponse) (calls : Nat),
      (gdLoop oracle attempt rem lp calls).2 ≤ calls + rem := by
  intro rem
  induction rem with
  | zero => intro attempt lp calls; simp [gdLoop]
  | succ r ih =>
    intro attempt lp calls
    simp only [gdLoop]
    repeat' split
    all_goals
      first
      | exact Nat.le_trans (ih _ _ _) (by omega)
      | exact show calls + 1 ≤ calls + (r + 1) by omega

/-- C8: on a parsed response whose draft content is the single line
`Title: Hello` (with empty title and non-empty assistant message),
`generate_draft` returns on the first attempt, but
`_normalize_title_content` promotes the whole content into the title and
leaves `draft.content` EMPTY, contradicting the claimed non-empty
`draft.content` on every return; the at-most-`max_repairs + 1`-backend-calls
part of the claim does hold. -/
theorem claim_C8_generate_draft_empty_content :
    (generate_draft
        (fun _ => some ⟨toL "hi", some ⟨[], toL "Title: Hello"⟩, none⟩) 2).1
      = { assistant_message := toL "hi",
          draft := some ⟨toL "Hello", []⟩,
          tool_plan := none }
    ∧ (generate_draft
        (fun _ => some ⟨toL "hi", some ⟨[], toL "Title: Hello"⟩, none⟩) 2).2 = 1
    ∧ (∀ (oracle : Nat → Option DraftResponse) (max_repairs : Nat),
        (generate_draft oracle max_repairs).2 ≤ max_repairs + 1) := by
  refine ⟨by decide, by decide, ?_⟩
  intro oracle max_repairs
  simpa using gdLoop_calls oracle (max_repairs + 1) 1 none 0

theorem claim_C8_generate_draft_empty_content_witness :
    (generate_draft (fun _ => none) 0).2 ≤ 1 :=
  claim_C8_generate_draft_empty_content.2.2 (fun _ => none) 0

/-- Occurrence of the literal word `w` at index `i` of `line` with `\b`
boundaries on both sides (all words used below start and end in `\w`
characters, so the boundary is exactly "adjacent character is not `\w`"). -/
def wordStartsAt (line w : List Char) (i : Nat) : Bool :=
  w.isPrefixOf (line.drop i)
  && (decide (i = 0) || !isWordCh (line.getD (i - 1) ' '))
  && (decide (line.length ≤ i + w.length)
      || !isWordCh (line.getD (i + w.length) ' '))

/-- Some word of `ws` occurs (with boundaries) at an index `≥ start`. -/
def hasWordFrom (line : List Char) (ws : List (List Char)) (start : Nat) : Bool :=
  (List.range (line.length + 1)).any fun i =>
    decide (start ≤ i) && ws.any fun w => wordStartsAt line w i

/-- `re.search` of `\b(A)\b.*\b(B)\b` within one line (`.` does not cross
newlines): some `A`-word occurrence followed, at or after its end, by some
`B`-word occurrence. -/
def seq2 (line : List Char) (as bs : List (List Char)) : Bool :=
  (List.range (line.length + 1)).any fun i =>
    as.any fun a => wordStartsAt line a i && hasWordFrom line bs (i + a.length)

/-- `re.search` of `\b(A)\b.*\b(B)\b.*\b(C)\b` within one line. -/
def seq3 (line : List Char) (as bs cs : List (List Char)) : Bool :=
  (List.range (line.length + 1)).any fun i =>
    as.any fun a => wordStartsAt line a i &&
      ((List.range (line.length + 1)).any fun j =>
        decide (i + a.length ≤ j) && bs.any fun b =>
          wordStartsAt line b j && hasWordFrom line cs (j + b.length))

/-- Some word of `ws` occurs anywhere in `text` (the words contain no
newline, so an occurrence lies within one line). -/
def hasWordL (text : List Char) (ws : List (List Char)) : Bool :=
  (splitOnNLAux text []).any fun line => hasWordFrom line ws 0

/-- `re.search` of `\b\w+\.(e1|e2|...)\b`: a nonempty run of `\w`
characters preceded by a boundary, a literal dot, then one of the
extensions followed by a boundary. -/
def hasExtWord (line : List Char) (exts : List (List Char)) : Bool :=
  (List.range (line.length + 1)).any fun i =>
    (decide (i = 0) || !isWordCh (line.getD (i - 1) ' '))
    && (List.range (line.length + 1)).any fun k =>
      decide (i < k)
      && ((List.range' i (k - i)).all fun m => isWordCh (line.getD m ' '))
      && decide (line.getD k ' ' = '.')
      && exts.any fun e =>
        e.isPrefixOf (line.drop (k + 1))
        && (decide (line.length ≤ k + 1 + e.length)
            || !isWordCh (line.getD (k + 1 + e.length) ' '))

/-- `api/v1/chat._looks_like_rag_request`: any of the five RAG regex
patterns matches the stripped, lowercased message. -/
def _looks_like_rag_request (user_message : List Char) : Bool :=
  let text := toLowerL (stripChars user_message)
  if text.isEmpty then false
  else (splitOnNLAux text []).any fun line =>
    seq2 line [toL "find"]
      [toL "file", toL "document", toL "doc", toL "pdf", toL "folder"]
    || seq2 line [toL "search", toL "look up", toL "lookup"]
      [toL "my", toL "local", toL "computer", toL "pc",
       toL "documents", toL "files"]
    || seq3 line [toL "from"] [toL "my", toL "local"]
      [toL "files", toL "documents", toL "computer", toL "pc"]
    || seq2 line [toL "use", toL "check", toL "scan"]
      [toL "rag", toL "documents", toL "files", toL "folder"]
    || seq2 line [toL "open", toL "read", toL "summarize"]
      [toL "file", toL "document", toL "pdf", toL "docx", toL "txt"]

/-- `api/v1/chat._looks_like_file_find_request`: `\breadme\b`, or a
file-extension word, or (find-verb AND for/about), or (find-verb AND
file-noun); the verb/noun pairs are independent searches with no ordering
constraint. -/
def _looks_like_file_find_request (user_message : List Char) : Bool :=
  let text := toLowerL (stripChars user_message)
  if text.isEmpty then false
  else
    hasWordL text [toL "readme"]
    || ((splitOnNLAux text []).any fun line =>
        hasExtWord line
          [toL "txt", toL "md", toL "pdf", toL "doc", toL "docx", toL "ppt",
           toL "pptx", toL "xls", toL "xlsx", toL "csv", toL "json", toL "py",
           toL "ts", toL "js", toL "cpp", toL "c", toL "java", toL "go",
           toL "rs"])
    || (hasWordL text [toL "find", toL "search", toL "locate", toL "lookup",
          toL "look up"]
        && hasWordL text [toL "for", toL "about"])
    || (hasWordL text [toL "find", toL "search", toL "locate", toL "where"]
        && hasWordL text
          [toL "file", toL "files", toL "folder", toL "directory",
           toL "photo", toL "photos", toL "picture", toL "pictures",
           toL "image", toL "images", toL "document", toL "documents",
           toL "pdf", toL "docx", toL "txt"])

/-- The observable outcome of an early return of `POST /chat`.  The user
`Message` row is inserted before the triage branches, and neither early
branch writes a `ToolPlan`. -/
structure ChatShortCircuit where
  assistant_message : List Char
  rag_permission_required : Bool
  rag_suggested_path : Option (List Char)
  userMessagePersisted : Bool
  toolPlanPersisted : Bool
deriving DecidableEq

/-- The first two triage branches of `POST /chat` (the RAG-intent
permission gate and the File-Search-mode guidance), after the user message
has been persisted; `none` means execution falls through to the later
branches.  `permissions` is `rag.list_permissions()` and
`default_docs_path` is `_default_docs_path()` (the user's home
directory). -/
def chat_triage (message : List Char) (force_file_search : Bool)
    (permissions : List (List Char)) (default_docs_path : List Char) :
    Option ChatShortCircuit :=
  if (force_file_search || _looks_like_rag_request message)
      && permissions.isEmpty then
    some { assistant_message := toL
             "Sure, but I need your permission to access local files first. Please approve folder access in the permission popup.",
           rag_permission_required := true,
           rag_suggested_path := some default_docs_path,
           userMessagePersisted := true,
           toolPlanPersisted := false }
  else if _looks_like_file_find_request message && !force_file_search then
    some { assistant_message := toL
             "Please turn on File Search mode and select allowed folders/disks to search. Then ask your file query again.",
           rag_permission_required := false,
           rag_suggested_path := none,
           userMessagePersisted := true,
           toolPlanPersisted := false }
  else none

/-- C9 counterexample: the message `find readme.md on my computer` has
file-find intent but matches none of the RAG-intent patterns
(`\bfind\b.*\b(file|document|doc|pdf|folder)\b` fails because none of
those nouns occurs as a whole word), so with no approved roots and File
Search off the request takes the second branch: `rag_permission_required`
is `false` and `rag_suggested_path` is null, not `true` and
non-null as claimed. -/
theorem claim_C9_counterexample :
    _looks_like_rag_request (toL "find readme.md on my computer") = false
    ∧ _looks_like_file_find_request (toL "find readme.md on my computer") = true
    ∧ chat_triage (toL "find readme.md on my computer") false []
        (toL "C:\\Users\\u")
      = some { assistant_message := toL
                 "Please turn on File Search mode and select allowed folders/disks to search. Then ask your file query again.",
               rag_permission_required := false,
               rag_suggested_path := none,
               userMessagePersisted := true,
               toolPlanPersisted := false } :=
  ⟨by decide, by decide, by decide⟩

/-- C9 (amended): a POST /chat whose message has file-find intent but no
RAG intent, with File Search mode off, short-circuits in the second
branch whatever the approved roots are: HTTP 200 with
`rag_permission_required == false`, a null `rag_suggested_path` and the
"turn on File Search mode" guidance; the user `Message` is persisted and
no tool plan is persisted. -/
theorem claim_C9_file_find_guidance :
    ∀ (message : List Char) (perms : List (List Char)) (dpath : List Char),
      _looks_like_rag_request message = false →
      _looks_like_file_find_request message = true →
      chat_triage message false perms dpath
        = some { assistant_message := toL
                   "Please turn on File Search mode and select allowed folders/disks to search. Then ask your file query again.",
                 rag_permission_required := false,
                 rag_suggested_path := none,
                 userMessagePersisted := true,
                 toolPlanPersisted := false } := by
  intro message perms dpath h1 h2
  simp [chat_triage, h1, h2]

theorem claim_C9_file_find_guidance_witness :
    _looks_like_rag_request (toL "where are my photos") = false
    ∧ _looks_like_file_find_request (toL "where are my photos") = true
    ∧ chat_triage (toL "where are my photos") false [] []
        = some { assistant_message := toL
                   "Please turn on File Search mode and select allowed folders/disks to search. Then ask your file query again.",
                 rag_permission_required := false,
                 rag_suggested_path := none,
                 userMessagePersisted := true,
                 toolPlanPersisted := false } :=
  ⟨by decide, by decide,
   claim_C9_file_find_guidance (toL "where are my photos") [] []
     (by decide) (by decide)⟩

end LocalFlow
